import Mathlib

/-
Verification of the hh_vectordb nearest-neighbour index library.

Modelling conventions, used uniformly below:

* Go `float64` arithmetic is idealised as exact rational arithmetic (`ℚ`).
* Every Euclidean distance `math.Sqrt(s)` of the source is represented by its
  square `s` (`euclidDistanceSq`).  A source comparison `dist ⊳ t` against a
  nonnegative threshold `t` is rendered as `distSq ⊳ t²`, which has the same
  truth value because squaring is strictly monotone on nonnegatives.  The only
  comparison sites where this rendering is not order-faithful are the metric
  trees' pruning/branch-order tests that subtract or add two distances
  (Ball/VP traversal guards); every theorem below that touches those sites is
  insensitive to their truth value (the `len < k` disjunct short-circuits when
  `k` covers the whole tree), so the results are unaffected.
* Go nil pointers are the `nil` constructors of the tree types; Go slices are
  `List`s; Go maps are association lists traversed in insertion order (Go's
  map iteration order is unspecified; only membership/set-level facts are
  proved about map-backed data).
* Go `panic` sites (out-of-range indexing on dimension mismatch) are modelled
  by total `getD` lookups with a default; no claim below exercises them.
-/

namespace VecDB

attribute [local semireducible] Rat.add Rat.mul Rat.sub Rat.inv

set_option maxRecDepth 8000

/-- basic.Vector: a stable 64-bit id plus the float64 coordinates. -/
structure Vector where
  id : ℤ
  values : List ℚ
deriving DecidableEq

/-- The Go zero value `Vector{}`. -/
def zeroVector : Vector := ⟨0, []⟩

/-- basic.EuclidDistance, squared representation: the source returns
`math.Sqrt` of this sum.  Go iterates the indices of `a` and reads `b[i]`
(panicking if `b` is shorter); `zipWith` agrees whenever lengths match. -/
def euclidDistanceSq (a b : List ℚ) : ℚ :=
  (List.zipWith (fun x y => (x - y) * (x - y)) a b).sum

/-- basic epsilon = 1e-9. -/
def epsilon : ℚ := 1 / 1000000000

/-- basic.floatEquals: |a - b| < 1e-9. -/
def floatEquals (a b : ℚ) : Bool := decide (|a - b| < epsilon)

/-- basic.Vector.Equals: same length and componentwise floatEquals. -/
def vectorEquals (v w : Vector) : Bool :=
  v.values.length == w.values.length &&
    (List.zipWith floatEquals v.values w.values).all id

/-- math.MaxFloat64, exactly: (2^53 - 1) * 2^971, written out as a numeral so
that concrete comparisons against it evaluate cheaply.  The source only uses
it as an "unset minimum" sentinel.  (Distances are carried squared in this
development; every squared distance that occurs below is far smaller.) -/
def maxFloat : ℚ := 179769313486231570814527423731704356798070567525844996598917476803157260780028538760589558632766878171540458953514382464234321326889464182768467546703537516986049910576551282076245490090389328944075868508455133942304583236903222948165808559332123348274797826204144723168738177180919299881250404026184124858368

/-- An entry of the bounded max-heaps (basic.Item / core.VectorDistance /
core.vectorDistPair): a vector together with its (squared) distance key. -/
abbrev DistPair := Vector × ℚ

/-- Insertion into the heap model.  A `container/heap` max-heap is modelled as
a list sorted by descending distance whose head is the heap root (the current
worst distance); Pop removes the head. -/
def heapInsert (x : DistPair) : List DistPair → List DistPair
  | [] => [x]
  | y :: ys => if y.2 < x.2 then x :: y :: ys else y :: heapInsert x ys

/-- Reading `(*pq)[0].Distance`, the heap root's key (worst distance). The
source only reads it when the heap is nonempty. -/
def headDist : List DistPair → ℚ
  | [] => 0
  | x :: _ => x.2

/-- The bounded-push idiom shared by KDTree.kNearest, VPTree.kNearestRecursive
and PQ.KNearest: `if len < k or d < worst { if len == k { Pop }; Push }`. -/
def heapPushBounded (k : ℕ) (pq : List DistPair) (x : DistPair) : List DistPair :=
  if pq.length < k ∨ x.2 < headDist pq then
    heapInsert x (if pq.length = k then pq.tail else pq)
  else pq

/-! ## Brute-force baseline (core.BruteForceSearch) -/

/-- BruteForceSearch.KNearest: compute every distance, sort ascending,
truncate to k (clamped to the data size).  Go's unstable `sort.Slice` is
modelled by a deterministic sort; all facts proved are invariant under the
permutation among ties. -/
def bruteKNearest (data : List Vector) (q : Vector) (k : ℕ) : List Vector :=
  let dists := data.map (fun v => (v, euclidDistanceSq q.values v.values))
  let sorted := List.insertionSort (fun a b => a.2 ≤ b.2) dists
  (sorted.take (min k data.length)).map Prod.fst

/-- BruteForceSearch.Nearest: linear scan; error (`none`) iff no vector beat
the `math.MaxFloat64` sentinel, i.e. the store is empty. -/
def bruteNearest (data : List Vector) (q : Vector) : Option Vector :=
  let best := data.foldl
    (fun (acc : Vector × ℚ) v =>
      let d := euclidDistanceSq v.values q.values
      if d < acc.2 then (v, d) else acc)
    (zeroVector, maxFloat)
  if best.2 = maxFloat then none else some best.1

/-! ## KD-tree (core.KDTree) -/

/-- core.KDNode; `nil` models the nil `*KDNode` pointer.  `distance` is the
mutable `Distance` field (squared representation). -/
inductive KDTreeN where
  | nil
  | node (vector : Vector) (left : KDTreeN) (right : KDTreeN) (axis : ℕ) (distance : ℚ)
deriving DecidableEq

/-- core.insertRecursively. -/
def insertRecursively : KDTreeN → Vector → ℕ → KDTreeN
  | .nil, vec, axis => .node vec .nil .nil axis 0
  | .node v l r ax dist, vec, axis =>
    if vec.values.getD axis 0 < v.values.getD axis 0 then
      .node v (insertRecursively l vec ((axis + 1) % vec.values.length)) r ax dist
    else
      .node v l (insertRecursively r vec ((axis + 1) % vec.values.length)) ax dist

/-- core.NewKDTree: repeated insertion starting from the empty tree. -/
def newKDTree (vectors : List Vector) : KDTreeN :=
  vectors.foldl (fun t v => insertRecursively t v 0) .nil

/-- core.KDTree.kNearest (recursive worker): guided descent with the bounded
max-heap; the far side is visited iff the heap is not full or the axis gap
beats the heap's worst distance (gap² < worst², order-faithful). -/
def kdKNearestAux (q : Vector) (k : ℕ) : KDTreeN → ℕ → List DistPair → List DistPair
  | .nil, _, pq => pq
  | .node v l r _ _, axis, pq =>
    let dist := euclidDistanceSq q.values v.values
    let pq1 := heapPushBounded k pq (v, dist)
    let qa := q.values.getD axis 0
    let va := v.values.getD axis 0
    let ax1 := (axis + 1) % q.values.length
    if va < qa then
      let pq2 := kdKNearestAux q k r ax1 pq1
      if pq2.length < k ∨ (va - qa) * (va - qa) < headDist pq2 then
        kdKNearestAux q k l ax1 pq2
      else pq2
    else
      let pq2 := kdKNearestAux q k l ax1 pq1
      if pq2.length < k ∨ (va - qa) * (va - qa) < headDist pq2 then
        kdKNearestAux q k r ax1 pq2
      else pq2

/-- core.KDTree.KNearest: run the worker from the root with axis 0, then pop
the heap (max first) and reverse, yielding ascending order. -/
def kdKNearest (t : KDTreeN) (q : Vector) (k : ℕ) : List Vector :=
  ((kdKNearestAux q k t 0 []).reverse).map Prod.fst

/-- core.KDTree.collectInRange.  The recursion guards are transcribed exactly
as in the source: left is visited iff `node[axis] - radius ≤ q[axis]` and
right iff `node[axis] + radius ≥ q[axis]`. -/
def collectInRange (q : Vector) (radius : ℚ) : KDTreeN → List Vector
  | .nil => []
  | .node v l r ax _ =>
    let here := if euclidDistanceSq q.values v.values ≤ radius * radius then [v] else []
    let qa := q.values.getD ax 0
    let va := v.values.getD ax 0
    here ++
      (if va - radius ≤ qa then collectInRange q radius l else []) ++
      (if va + radius ≥ qa then collectInRange q radius r else [])

/-- core.KDTree.SearchWithinRange. -/
def kdSearchWithinRange (t : KDTreeN) (q : Vector) (radius : ℚ) : List Vector :=
  collectInRange q radius t

/-- core.nearest (the worker of KDTree.Nearest), including its side effect:
`best = node; best.Distance = d` writes the fresh distance into the tree node
that becomes the current best.  The function returns the updated node graph
together with the final best (vector, distance) pair. -/
def kdNearestMut (q : Vector) : KDTreeN → Option DistPair → KDTreeN × Option DistPair
  | .nil, best => (.nil, best)
  | .node v l r ax dist0, best =>
    let d := euclidDistanceSq v.values q.values
    let takes : Bool := best.isNone || decide (d < (best.map Prod.snd).getD 0)
    let dist1 := if takes then d else dist0
    let best1 := if takes then some (v, d) else best
    let qa := q.values.getD ax 0
    let va := v.values.getD ax 0
    if qa < va then
      let res := kdNearestMut q l best1
      if (qa - va) * (qa - va) < ((res.2.map Prod.snd).getD 0) then
        let res2 := kdNearestMut q r res.2
        (.node v res.1 res2.1 ax dist1, res2.2)
      else
        (.node v res.1 r ax dist1, res.2)
    else
      let res := kdNearestMut q r best1
      if (qa - va) * (qa - va) < ((res.2.map Prod.snd).getD 0) then
        let res2 := kdNearestMut q l res.2
        (.node v res2.1 res.1 ax dist1, res2.2)
      else
        (.node v l res.1 ax dist1, res.2)

/-- core.KDTree.Nearest: the returned vector (`none` models the
"no nearest neighbor found" error on an empty tree). -/
def kdNearest (t : KDTreeN) (q : Vector) : Option Vector :=
  ((kdNearestMut q t none).2).map Prod.fst

/-- The tree as left behind by a KDTree.Nearest call (the node graph with the
`Distance` fields the search assigned). -/
def kdNearestTree (t : KDTreeN) (q : Vector) : KDTreeN :=
  (kdNearestMut q t none).1

/-- core.KDTree.SaveToFile: gob-encodes `tree.Root`, i.e. the complete node
graph including every exported field (`Vector`, `Left`, `Right`, `Axis`,
`Distance`).  The snapshot payload is therefore the root node graph itself. -/
def kdSaveToFile (root : KDTreeN) : KDTreeN := root

/-- The `Distance` field of the root node (0 for the nil tree). -/
def kdRootDistance : KDTreeN → ℚ
  | .nil => 0
  | .node _ _ _ _ d => d

/-! ## Ball-tree (core.BallTree) -/

/-- core.BallTree; `nil` models the nil `*BallTree` pointer.  `radius` carries
the squared representation of the source's radius. -/
inductive BallTreeN where
  | nil
  | node (center : Vector) (radius : ℚ) (left right : BallTreeN) (isLeaf : Bool) (payload : Vector)
deriving DecidableEq

/-- core.splitV1: pivot on the first vector's coordinate 0; strictly smaller
coordinates go left, the rest right, and the pivot vector itself is appended
to the currently smaller side. -/
def splitV1 (vectors : List Vector) : List Vector × List Vector :=
  match vectors with
  | [] => ([], [])
  | [v] => ([v], [])
  | pv :: rest =>
    let pivot := pv.values.getD 0 0
    let left := rest.filter (fun v => decide (v.values.getD 0 0 < pivot))
    let right := rest.filter (fun v => !(decide (v.values.getD 0 0 < pivot)))
    if left.length < right.length then (left ++ [pv], right) else (left, right ++ [pv])

theorem splitV1_length_sum (vectors : List Vector) :
    (splitV1 vectors).1.length + (splitV1 vectors).2.length = vectors.length := by
  match vectors with
  | [] => rfl
  | [v] => rfl
  | pv :: v1 :: rest =>
    simp only [splitV1]
    have h := (List.filter_append_perm
      (fun v => decide (v.values.getD 0 0 < pv.values.getD 0 0)) (v1 :: rest)).length_eq
    simp only [List.length_append, List.length_cons] at h
    split <;> simp only [List.length_append, List.length_cons, List.length_nil] <;> omega

theorem splitV1_perm (vectors : List Vector) :
    ((splitV1 vectors).1 ++ (splitV1 vectors).2).Perm vectors := by
  match vectors with
  | [] => simp [splitV1]
  | [v] => simp [splitV1]
  | pv :: v1 :: rest =>
    simp only [splitV1]
    have hp : ((v1 :: rest).filter (fun v => decide (v.values.getD 0 0 < pv.values.getD 0 0)) ++
        (v1 :: rest).filter (fun v => !(decide (v.values.getD 0 0 < pv.values.getD 0 0)))).Perm
        (v1 :: rest) := List.filter_append_perm _ _
    split
    · refine List.Perm.trans ?_ (hp.cons pv)
      simp only [List.append_assoc, List.singleton_append]
      exact List.perm_middle
    · refine List.Perm.trans ?_ (hp.cons pv)
      rw [← List.append_assoc]
      exact List.perm_append_singleton pv _

theorem splitV1_nonempty (vectors : List Vector) (h : 2 ≤ vectors.length) :
    (splitV1 vectors).1 ≠ [] ∧ (splitV1 vectors).2 ≠ [] := by
  match vectors with
  | [] => simp at h
  | [v] => simp at h
  | pv :: v1 :: rest =>
    simp only [splitV1]
    have hl := (List.filter_append_perm
      (fun v => decide (v.values.getD 0 0 < pv.values.getD 0 0)) (v1 :: rest)).length_eq
    simp only [List.length_append, List.length_cons] at hl
    constructor <;> split <;>
      simp_all only [ne_eq, ← List.length_pos_iff_ne_nil, List.length_append,
        List.length_cons, List.length_nil] <;> omega

/-- core.computeBoundingSphere: coordinate-wise mean of the set (the dimension
is that of the first vector) and, in squared representation, the largest
squared distance from the mean to any member. -/
def computeBoundingSphere (vectors : List Vector) : Vector × ℚ :=
  match vectors with
  | [] => (zeroVector, 0)
  | v0 :: _ =>
    let n : ℚ := vectors.length
    let center : Vector :=
      ⟨0, (List.range v0.values.length).map
        (fun i => (vectors.map (fun v => v.values.getD i 0)).sum / n)⟩
    let radius := (vectors.map (fun v => euclidDistanceSq center.values v.values)).foldl max 0
    (center, radius)

/-- core.NewBallTree.  Sets of size ≤ 1 become leaves; larger sets are split
by `splitV1` and both halves recursed into.  The source panics if a half is
empty; that cannot happen (`splitV1_nonempty`), and the branch is modelled by
`nil`. -/
def newBallTree (vectors : List Vector) : BallTreeN :=
  match vectors with
  | [] => .node zeroVector 0 .nil .nil true zeroVector
  | [v] => .node zeroVector 0 .nil .nil true v
  | v0 :: v1 :: rest =>
    let cr := computeBoundingSphere (v0 :: v1 :: rest)
    if hh : (splitV1 (v0 :: v1 :: rest)).1.length = 0 ∨ (splitV1 (v0 :: v1 :: rest)).2.length = 0
    then .nil
    else .node cr.1 cr.2 (newBallTree (splitV1 (v0 :: v1 :: rest)).1)
      (newBallTree (splitV1 (v0 :: v1 :: rest)).2) false zeroVector
termination_by vectors.length
decreasing_by
  · have hs := splitV1_length_sum (v0 :: v1 :: rest)
    push_neg at hh
    simp only [List.length_cons] at hs ⊢
    omega
  · have hs := splitV1_length_sum (v0 :: v1 :: rest)
    push_neg at hh
    simp only [List.length_cons] at hs ⊢
    omega

/-- Field access `tree.Center.Values` through a possibly-nil pointer (the
source would panic on nil; unreachable for built trees). -/
def ballCenterValues : BallTreeN → List ℚ
  | .nil => []
  | .node c _ _ _ _ _ => c.values

/-- Field access `tree.Radius`. -/
def ballRadius : BallTreeN → ℚ
  | .nil => 0
  | .node _ rad _ _ _ _ => rad

/-- core.BallTree.kNearestRecursive.  At a leaf, push if the heap is not full
or the payload improves on the worst, then pop if the size exceeds k.  At an
internal node, recurse into the child with smaller lower bound first and into
the other only if the heap is not full or its bound beats the worst.  The two
bound comparisons subtract a radius from a distance; their squared rendering
is not order-faithful in general, but every theorem below about this function
has `k` covering the whole tree, making both tests irrelevant (`len < k`). -/
def ballKNearestAux (q : Vector) (k : ℕ) : BallTreeN → List DistPair → List DistPair
  | .nil, h => h
  | .node _ _ l r isLeaf payload, h =>
    if isLeaf then
      let dist := euclidDistanceSq payload.values q.values
      let h1 := if h.length < k ∨ dist < headDist h then heapInsert (payload, dist) h else h
      if k < h1.length then h1.tail else h1
    else
      let distToLeft := euclidDistanceSq (ballCenterValues l) q.values - ballRadius l
      let distToRight := euclidDistanceSq (ballCenterValues r) q.values - ballRadius r
      if distToLeft < distToRight then
        let h1 := ballKNearestAux q k l h
        if h1.length < k ∨ distToRight < headDist h1 then ballKNearestAux q k r h1 else h1
      else
        let h1 := ballKNearestAux q k r h
        if h1.length < k ∨ distToLeft < headDist h1 then ballKNearestAux q k l h1 else h1

/-- core.BallTree.KNearest: errors (`none`) iff k ≤ 0; otherwise pop the heap
(max first) and reverse into ascending order. -/
def ballKNearest (t : BallTreeN) (q : Vector) (k : ℕ) : Option (List Vector) :=
  if k = 0 then none
  else some (((ballKNearestAux q k t []).reverse).map Prod.fst)

/-- core.BallTree.Nearest.  Every return path of the source carries a nil
error, so the call always "succeeds"; on a leaf (including the empty-tree
leaf built by NewBallTree(nil)) it returns the payload as is. -/
def ballNearest (q : Vector) : BallTreeN → Vector
  | .nil => zeroVector
  | .node _ _ l r isLeaf payload =>
    if isLeaf then payload
    else
      let distToLeft := euclidDistanceSq (ballCenterValues l) q.values - ballRadius l
      let distToRight := euclidDistanceSq (ballCenterValues r) q.values - ballRadius r
      if distToLeft < distToRight then
        let closest := ballNearest q l
        let other := ballNearest q r
        if euclidDistanceSq q.values closest.values < euclidDistanceSq q.values other.values
        then closest else other
      else
        let closest := ballNearest q r
        let other := ballNearest q l
        if euclidDistanceSq q.values closest.values < euclidDistanceSq q.values other.values
        then closest else other

/-! ## VP-tree (core.VPTree) -/

/-- core.VPNode; `nil` models the nil `*VPNode` pointer.  `mu` carries the
squared representation of the source's median distance threshold. -/
inductive VPTreeN where
  | nil
  | node (vp : Vector) (mu : ℚ) (left right : VPTreeN)
deriving DecidableEq

/-- basic.Median: sort ascending, return the middle element, or the average
of the two middle elements for an even count.  Applied to squared distances
in this development; for an even count the average of squares differs from
the square of the source's averaged distances, which can only change on
which side of a build threshold borderline vectors land — no theorem below
depends on the shape of an even-count split. -/
def median (nums : List ℚ) : ℚ :=
  let sorted := List.insertionSort (fun a b => a ≤ b) nums
  let n := sorted.length
  if n % 2 = 0 then (sorted.getD (n / 2 - 1) 0 + sorted.getD (n / 2) 0) / 2
  else sorted.getD (n / 2) 0

/-- core.VPTree.buildVPTree: vantage point = first vector, threshold = the
median distance to the remaining vectors, which are partitioned by
`dist < mu`. -/
def buildVPTree : List Vector → VPTreeN
  | [] => .nil
  | [v] => .node v 0 .nil .nil
  | vp :: v1 :: rest =>
    let distances := (v1 :: rest).map (fun v => euclidDistanceSq vp.values v.values)
    let mu := median distances
    .node vp mu
      (buildVPTree ((v1 :: rest).filter (fun v => decide (euclidDistanceSq vp.values v.values < mu))))
      (buildVPTree ((v1 :: rest).filter (fun v => !(decide (euclidDistanceSq vp.values v.values < mu)))))
termination_by l => l.length
decreasing_by
  all_goals
    refine lt_of_le_of_lt (List.length_filter_le _ _) ?_
    simp only [List.length_cons]
    omega

/-- core.NewVPTree. -/
def newVPTree (vectors : List Vector) : VPTreeN := buildVPTree vectors

/-- core.VPTree.kNearestRecursive: push the vantage point with the bounded
rule, descend into the near half, and visit the far half iff the heap is not
full or the source's `d ± mu ≤ worst` test passes (a sum/difference of two
distances; its squared rendering is not order-faithful in general, but every
theorem below about this function has `k` covering the whole tree, making the
test irrelevant). -/
def vpKNearestAux (q : Vector) (k : ℕ) : VPTreeN → List DistPair → List DistPair
  | .nil, pq => pq
  | .node vp mu l r, pq =>
    let d := euclidDistanceSq q.values vp.values
    let pq1 := heapPushBounded k pq (vp, d)
    if d < mu then
      let pq2 := vpKNearestAux q k l pq1
      if pq2.length < k ∨ d + mu ≤ headDist pq2 then vpKNearestAux q k r pq2 else pq2
    else
      let pq2 := vpKNearestAux q k r pq1
      if pq2.length < k ∨ d - mu ≤ headDist pq2 then vpKNearestAux q k l pq2 else pq2

/-- core.VPTree.KNearest: fill `results` back to front by popping the heap
(max first), yielding ascending order.  The source never returns an error. -/
def vpKNearest (t : VPTreeN) (q : Vector) (k : ℕ) : List Vector :=
  ((vpKNearestAux q k t []).reverse).map Prod.fst

/-- core.VPTree.Nearest: `KNearest(q, 1)`; on an empty result the zero vector
is returned, and the accompanying error is nil on every path (KNearest never
fails), so the call always "succeeds". -/
def vpNearest (t : VPTreeN) (q : Vector) : Vector :=
  match vpKNearest t q 1 with
  | [] => zeroVector
  | v :: _ => v

/-- core.VPTree.inOrderTraversal (used by Vectors and subTreeVectors). -/
def vpInOrder : VPTreeN → List Vector
  | .nil => []
  | .node vp _ l r => vpInOrder l ++ [vp] ++ vpInOrder r

/-- Go's `append(vectors[:i], vectors[i+1:]...)` inside deleteRecursive:
remove the first element that `Equals` the target. -/
def removeFirstEquals (vec : Vector) : List Vector → List Vector
  | [] => []
  | v :: rest => if vectorEquals v vec then rest else v :: removeFirstEquals vec rest

/-- core.VPTree.deleteRecursive: on the node whose vantage point `Equals` the
target, collect the subtree, drop the first match and rebuild; otherwise
recurse into the half selected by `dist < mu`, discarding the recursive
success flag and reporting `true` unconditionally. -/
def vpDeleteRec (vec : Vector) : VPTreeN → VPTreeN × Bool
  | .nil => (.nil, false)
  | .node vp mu l r =>
    if vectorEquals vp vec then
      (buildVPTree (removeFirstEquals vec (vpInOrder (.node vp mu l r))), true)
    else if euclidDistanceSq vp.values vec.values < mu then
      ((VPTreeN.node vp mu (vpDeleteRec vec l).1 r), true)
    else
      ((VPTreeN.node vp mu l (vpDeleteRec vec r).1), true)

/-- core.VPTree.Delete: `none` models the "vector not found" error, returned
exactly when the recursion reports failure. -/
def vpDelete (t : VPTreeN) (vec : Vector) : Option VPTreeN :=
  let res := vpDeleteRec vec t
  if res.2 then some res.1 else none

/-! ## Cover-tree (core.CoverTree) -/

/-- core.CoverTreeNode (the MaxMetric field is never read or written by the
operations modelled here and is omitted). -/
inductive CoverNode where
  | mk (point : Vector) (level : ℤ) (children : List CoverNode)

def CoverNode.point : CoverNode → Vector
  | .mk p _ _ => p

def CoverNode.level : CoverNode → ℤ
  | .mk _ l _ => l

def CoverNode.children : CoverNode → List CoverNode
  | .mk _ _ c => c

/-- The three outcomes of core.CoverTree.insert: success with the updated
node, the "duplicate vector" error, or the "cannot insert" error. -/
inductive CoverInsertOutcome where
  | inserted (n : CoverNode)
  | duplicate
  | cannotInsert

mutual

/-- core.CoverTree.insert: fail `duplicate` iff the node's point is at
distance 0 from the vector; if the vector fits under the node
(`d < base^(level-1)`, squared as `d² < (base^(level-1))²`), offer it to each
child in order — the first child that reports success wins, and any child
error (`duplicate` included) merely moves on to the next child — falling back
to attaching a fresh child; otherwise fail `cannotInsert`. -/
def ctInsertNode (base : ℚ) (vec : Vector) : CoverNode → CoverInsertOutcome
  | .mk point level children =>
    let d := euclidDistanceSq point.values vec.values
    if d = 0 then .duplicate
    else if d < (base ^ (level - 1)) ^ 2 then
      match ctInsertChildren base vec children with
      | some children2 => .inserted (.mk point level children2)
      | none => .inserted (.mk point level (children ++ [.mk vec (level - 1) []]))
    else .cannotInsert

/-- The `for _, child := range node.Children` loop of core.CoverTree.insert:
`some` with the updated list if some child accepted the vector, `none` if
every child failed (with any error). -/
def ctInsertChildren (base : ℚ) (vec : Vector) : List CoverNode → Option (List CoverNode)
  | [] => none
  | c :: rest =>
    match ctInsertNode base vec c with
    | .inserted c2 => some (c2 :: rest)
    | _ => (ctInsertChildren base vec rest).map (fun rest2 => c :: rest2)

end

/-- core.CoverTree.Insert: an empty tree receives the vector as a level-0
root; a `cannotInsert` bubbling to the top lifts the root under a new root
holding the vector; only a propagated `duplicate` is returned as an error
(`none`). -/
def coverTreeInsert (base : ℚ) : Option CoverNode → Vector → Option (Option CoverNode)
  | none, vec => some (some (.mk vec 0 []))
  | some root, vec =>
    match ctInsertNode base vec root with
    | .inserted r2 => some (some r2)
    | .duplicate => none
    | .cannotInsert => some (some (.mk vec (root.level + 1) [root]))

/-! ## LSH (core.LSH) -/

/-- core.LSH.  The hash functions are pure closures over `randomVectors`
(`createHashFuncWithVector`), so only the reference vectors are stored; each
hash table (a Go map) is an association list traversed in insertion order —
only membership-level facts are proved about it. -/
structure LSHState where
  hashTables : List (List (ℤ × List Vector))
  randomVectors : List Vector
  bucketSize : ℤ
deriving DecidableEq

/-- The floor of a nonnegative rational (its numerator divided by its
denominator, truncating — which is the floor for nonnegative values; every
argument below is a squared distance, hence nonnegative). -/
def ratFloorNonneg (q : ℚ) : ℤ := q.num / q.den

/-- The integer square root ⌊√n⌋: the largest k ≤ n with k·k ≤ n. -/
def floorSqrt (n : ℕ) : ℕ :=
  (List.range (n + 1)).foldl (fun acc k => if k * k ≤ n then k else acc) 0

/-- core.createHashFuncWithVector: `int64(EuclidDistanceVec(r, v))`.  The Go
conversion truncates the nonnegative distance `√s` toward zero, and
`⌊√s⌋ = floorSqrt ⌊s⌋` for s ≥ 0, so the hash is computed from the squared
distance without loss. -/
def lshHash (r v : Vector) : ℤ :=
  (floorSqrt (Int.toNat (ratFloorNonneg (euclidDistanceSq r.values v.values))) : ℤ)

/-- Go map read `table[h]` (with its `exists` flag). -/
def lookupBucket (table : List (ℤ × List Vector)) (h : ℤ) : Option (List Vector) :=
  (table.find? (fun p => p.1 == h)).map Prod.snd

/-- Go map write `table[h] = bucket`. -/
def setBucket (table : List (ℤ × List Vector)) (h : ℤ) (bucket : List Vector) :
    List (ℤ × List Vector) :=
  if (table.find? (fun p => p.1 == h)).isSome
  then table.map (fun p => if p.1 == h then (p.1, bucket) else p)
  else table ++ [(h, bucket)]

/-- core.NewLSH with the random draw injected: one empty table per reference
vector. -/
def newLSH (randomVectors : List Vector) (bucketSize : ℤ) : LSHState :=
  ⟨randomVectors.map (fun _ => []), randomVectors, bucketSize⟩

/-- core.LSH.Insert: for each hash function i, hash the vector into table i;
a bucket that exists and is full is skipped silently, otherwise the vector
is appended (creating the bucket if absent).  Tables beyond the hash
function list are untouched (Go would panic on the opposite mismatch; both
lists have the same length in every constructed state).  The source returns
nil unconditionally, so the call always "succeeds". -/
def lshInsertTable (s : LSHState) (vec : Vector)
    (rt : Vector × List (ℤ × List Vector)) : List (ℤ × List Vector) :=
  let h := lshHash rt.1 vec
  match lookupBucket rt.2 h with
  | some bucket =>
    if (bucket.length : ℤ) ≥ s.bucketSize then rt.2
    else setBucket rt.2 h (bucket ++ [vec])
  | none => setBucket rt.2 h [vec]

/-- core.LSH.Insert, continued: the per-table step over every (hash
function, table) pair. -/
def lshInsert (s : LSHState) (vec : Vector) : LSHState :=
  { s with hashTables :=
      (List.zip s.randomVectors s.hashTables).map (lshInsertTable s vec)
      ++ s.hashTables.drop s.randomVectors.length }

/-- The skip test of LSH.Insert, negated: table rt has room for (a bucket
containing) the hashed vector — the bucket either does not exist yet or is
below the cap. -/
def bucketHasRoom (s : LSHState) (rt : Vector × List (ℤ × List Vector)) (vec : Vector) : Bool :=
  match lookupBucket rt.2 (lshHash rt.1 vec) with
  | some bucket => decide ((bucket.length : ℤ) < s.bucketSize)
  | none => true

/-- The deduplication-by-ID scan of core.LSH.Vectors. -/
def dedupById (seen : List ℤ) : List Vector → List Vector
  | [] => []
  | v :: rest =>
    if v.id ∈ seen then dedupById seen rest
    else v :: dedupById (v.id :: seen) rest

/-- The raw bucket contents of every table, in traversal order. -/
def lshAllRaw (s : LSHState) : List Vector :=
  (s.hashTables.map (fun t => (t.map Prod.snd).flatten)).flatten

/-- core.LSH.Vectors: every bucket of every table, deduplicated by vector ID
(first occurrence wins). -/
def lshVectors (s : LSHState) : List Vector :=
  dedupById [] (lshAllRaw s)

/-! ## Product quantizer (core.PQ) -/

/-- core.Centroid. -/
structure Centroid where
  id : ℤ
  vector : Vector
deriving DecidableEq

/-- core.PQ.  `m` and `k` are the unexported subspace count and per-subspace
centroid count; `codebooks`, `db`, `ids` and `idLookup` are the exported
fields (IDLookup, a Go map, as an association list). -/
structure PQState where
  m : ℕ
  k : ℕ
  codebooks : List (List Centroid)
  db : List Vector
  ids : List (List ℤ)
  idLookup : List (ℤ × ℕ)
deriving DecidableEq

/-- core.NewPQ: `make([][]Centroid, m)` yields m empty codebooks. -/
def newPQ (m k : ℕ) : PQState :=
  ⟨m, k, List.replicate m [], [], [], []⟩

/-- Go map write `p.IDLookup[id] = idx`. -/
def setLookup (lookup : List (ℤ × ℕ)) (id : ℤ) (idx : ℕ) : List (ℤ × ℕ) :=
  if (lookup.find? (fun p => p.1 == id)).isSome
  then lookup.map (fun p => if p.1 == id then (p.1, idx) else p)
  else lookup ++ [(id, idx)]

/-- Go map read `p.IDLookup[id]`. -/
def getLookup (lookup : List (ℤ × ℕ)) (id : ℤ) : Option ℕ :=
  (lookup.find? (fun p => p.1 == id)).map Prod.snd

/-- The slice `values[start : start+len]`. -/
def sliceVals (values : List ℚ) (start len : ℕ) : List ℚ :=
  (values.drop start).take len

/-- core.PQ.nearestCentroid: scan for the centroid with minimal distance,
starting from the `math.MaxFloat64` sentinel; an empty codebook is the error
path, whose id the caller (quantize) discards in favour of the zero value. -/
def nearestCentroid (codebook : List Centroid) (query : List ℚ) : ℤ :=
  let best := codebook.foldl
    (fun (acc : ℚ × ℤ) c =>
      let dist := euclidDistanceSq query c.vector.values
      if dist < acc.1 then (dist, c.id) else acc)
    (maxFloat, -1)
  if best.2 = -1 then 0 else best.2

/-- core.PQ.quantize: the nearest-centroid id for each of the m slices. -/
def quantize (p : PQState) (vec : Vector) : List ℤ :=
  let s := vec.values.length / p.m
  (List.range p.m).map (fun i => nearestCentroid (p.codebooks.getD i []) (sliceVals vec.values (i * s) s))

/-- core.PQ.Insert: record the lookup index, append to DB, append the codes.
No duplicate-id check is performed. -/
def pqInsertVec (p : PQState) (vec : Vector) : PQState :=
  { p with
    idLookup := setLookup p.idLookup vec.id p.db.length
    db := p.db ++ [vec]
    ids := p.ids ++ [quantize p vec] }

/-- The loop of core.splitVector, with the iteration count bounded by the
list length (each pass drops at least one element, so `values.length` passes
always suffice; the bound only makes the recursion structural). -/
def splitVectorGo : ℕ → List ℚ → ℕ → List (List ℚ)
  | 0, _, _ => []
  | _ + 1, [], _ => []
  | _ + 1, _ :: _, 0 => []
  | fuel + 1, v :: vs, n + 1 =>
    (v :: vs).take (n + 1) :: splitVectorGo fuel ((v :: vs).drop (n + 1)) (n + 1)

/-- core.splitVector: consecutive chunks of the given length (the final chunk
may be shorter).  A zero segment length loops forever in the source;
modelled as the empty output (unreachable in the claims). -/
def splitVector (values : List ℚ) (segLen : ℕ) : List (List ℚ) :=
  splitVectorGo values.length values segLen

/-- core.PQ.calculateDistancesToCentroids for one query slice. -/
def calcDistancesToCentroids (segment : List ℚ) (centroids : List Centroid) : List ℚ :=
  centroids.map (fun c => euclidDistanceSq segment c.vector.values)

/-- The per-query table `distancesToCentroids`: one row per query segment,
row i computed against codebook i (the source allocates m rows and fills one
per segment; missing rows are nil). -/
def pqDistTables (p : PQState) (q : Vector) : List (List ℚ) :=
  let segLen := q.values.length / p.m
  (splitVector q.values segLen).enum.map
    (fun si => calcDistancesToCentroids si.2 (p.codebooks.getD si.1 []))

/-- core.PQ.estimateDistance: sum, over the vector's stored codes, of the
precomputed slice-to-centroid distances.  A vector absent from IDLookup gets
a nil code list and hence estimate 0, exactly as in the source. -/
def estimateDistance (p : PQState) (distTables : List (List ℚ)) (vec : Vector) : ℚ :=
  match getLookup p.idLookup vec.id with
  | none => 0
  | some idx =>
    (((p.ids.getD idx []).enum.map
      (fun ci => (distTables.getD ci.1 []).getD ci.2.toNat 0)).sum)

/-- The ADC estimate of a single database vector for a query (the quantity
PQ.KNearest ranks by). -/
def pqQueryEstimate (p : PQState) (q : Vector) (vec : Vector) : ℚ :=
  estimateDistance p (pqDistTables p q) vec

/-- core.PQ.KNearest: error (`none`) iff the codebooks are untrained;
otherwise a bounded max-heap scan of DB keyed by the ADC estimate, emitted in
ascending estimate order. -/
def pqKNearest (p : PQState) (q : Vector) (k : ℕ) : Option (List Vector) :=
  if p.codebooks.length = 0 then none
  else
    let distTables := pqDistTables p q
    let heapFinal := p.db.foldl
      (fun h vec =>
        let est := estimateDistance p distTables vec
        if h.length < k then heapInsert (vec, est) h
        else if est < headDist h then heapInsert (vec, est) h.tail
        else h) []
    some ((heapFinal.reverse).map Prod.fst)

/-- core.PQ gob snapshot: gob encodes only the exported fields, so the
unexported `m` and `k` are not part of the payload. -/
structure PQSnapshot where
  codebooks : List (List Centroid)
  db : List Vector
  ids : List (List ℤ)
  idLookup : List (ℤ × ℕ)
deriving DecidableEq

/-- core.PQ.SaveToFile: gob-encode the receiver (exported fields only). -/
def pqSaveToFile (p : PQState) : PQSnapshot :=
  ⟨p.codebooks, p.db, p.ids, p.idLookup⟩

/-- core.PQ.LoadFromFile: gob-decode into the receiver, overwriting the
exported fields and leaving the unexported `m` and `k` at the values the
receiving PQ was constructed with. -/
def pqLoadFromFile (snap : PQSnapshot) (p : PQState) : PQState :=
  { p with codebooks := snap.codebooks, db := snap.db, ids := snap.ids,
           idLookup := snap.idLookup }

/-- core.PQ.SearchWithinInterval's findTopNCentroids helper: sort the
centroids by distance to the slice and take the first n, padding with zero
`Centroid` values when fewer exist (Go's `make([]Centroid, n)`). -/
def findTopNCentroids (subVec : List ℚ) (centroids : List Centroid) (n : ℕ) : List Centroid :=
  let pairs := centroids.map (fun c => (euclidDistanceSq subVec c.vector.values, c))
  let sorted := List.insertionSort (fun a b => a.1 ≤ b.1) pairs
  (List.range n).map (fun i => ((sorted.getD i (0, ⟨0, zeroVector⟩)).2))

/-- Inserting an index into the candidate set (a Go `map[int]struct{}`,
modelled as a first-insertion-ordered duplicate-free list). -/
def insertCandidate (acc : List ℕ) (idx : ℕ) : List ℕ :=
  if idx ∈ acc then acc else acc ++ [idx]

/-- core.PQ.SearchWithinInterval.  For each subspace i, the top-3 centroids
of the query slice are found; for each such centroid within the expanded
threshold `3·maxDist`, the source executes `for idx := range p.IDs[i]`,
adding the positions 0..len(p.IDs[i])-1 — the subspace positions of database
vector i's code array — to the candidate set.  Candidates are then refined by
exact distance into [minDist, maxDist].  (The iteration order of the Go
candidate set is unspecified; the model fixes first-insertion order, which
does not affect the set of returned vectors.) -/
def pqSearchWithinInterval (p : PQState) (q : Vector) (minDist maxDist : ℚ) : List Vector :=
  let subLen := q.values.length / p.m
  let n := 3
  let expandedMaxDist := 3 * maxDist
  let candidateIndices := (List.range p.m).foldl
    (fun acc i =>
      let subVec := sliceVals q.values (i * subLen) subLen
      let tops := findTopNCentroids subVec (p.codebooks.getD i []) n
      tops.foldl
        (fun acc2 c =>
          let dsq := euclidDistanceSq subVec c.vector.values
          if dsq ≤ expandedMaxDist * expandedMaxDist then
            (List.range (p.ids.getD i []).length).foldl insertCandidate acc2
          else acc2) acc) []
  candidateIndices.foldl
    (fun res idx =>
      let dsq := euclidDistanceSq q.values ((p.db.getD idx zeroVector).values)
      if minDist * minDist ≤ dsq ∧ dsq ≤ maxDist * maxDist then
        res ++ [p.db.getD idx zeroVector]
      else res) []

/-- core.PQ.SearchWithinRange: `SearchWithinInterval(q, 0, radius)`. -/
def pqSearchWithinRange (p : PQState) (q : Vector) (radius : ℚ) : List Vector :=
  pqSearchWithinInterval p q 0 radius

/-! ## Derived observations used by the theorems -/

/-- The multiset of ids of a result list (the claims compare searches up to
reordering). -/
def idsMultiset (l : List Vector) : Multiset ℤ :=
  (l.map Vector.id : Multiset ℤ)

/-- The multiset of vectors stored in a KD-tree. -/
def kdNodes : KDTreeN → Multiset Vector
  | .nil => 0
  | .node v l r _ _ => v ::ₘ (kdNodes l + kdNodes r)

/-- The multiset of payloads at the leaves of a Ball-tree (the vectors it
stores). -/
def ballLeaves : BallTreeN → Multiset Vector
  | .nil => 0
  | .node _ _ l r isLeaf payload =>
    if isLeaf then {payload} else ballLeaves l + ballLeaves r

/-- The multiset of vantage points stored in a VP-tree. -/
def vpNodes : VPTreeN → Multiset Vector
  | .nil => 0
  | .node vp _ l r => vp ::ₘ (vpNodes l + vpNodes r)

/-! ### Heap model lemmas -/

theorem heapInsert_perm (x : DistPair) (l : List DistPair) :
    (heapInsert x l).Perm (x :: l) := by
  induction l with
  | nil => simp [heapInsert]
  | cons y ys ih =>
    simp only [heapInsert]
    split
    · exact List.Perm.refl _
    · exact (ih.cons y).trans (List.Perm.swap x y ys)

theorem heapInsert_length (x : DistPair) (l : List DistPair) :
    (heapInsert x l).length = l.length + 1 :=
  (heapInsert_perm x l).length_eq

theorem heapInsert_coe (x : DistPair) (l : List DistPair) :
    ((heapInsert x l : List DistPair) : Multiset DistPair) = x ::ₘ ↑l := by
  exact_mod_cast Multiset.coe_eq_coe.mpr (heapInsert_perm x l)

theorem heapPushBounded_coe_of_lt (k : ℕ) (pq : List DistPair) (x : DistPair)
    (h : pq.length < k) :
    ((heapPushBounded k pq x : List DistPair) : Multiset DistPair) = x ::ₘ ↑pq := by
  unfold heapPushBounded
  rw [if_pos (Or.inl h), if_neg (Nat.ne_of_lt h)]
  exact heapInsert_coe x pq

theorem heapPushBounded_length_of_lt (k : ℕ) (pq : List DistPair) (x : DistPair)
    (h : pq.length < k) :
    (heapPushBounded k pq x).length = pq.length + 1 := by
  have := congrArg Multiset.card (heapPushBounded_coe_of_lt k pq x h)
  simpa using this

/-! ### KD-tree: insertion preserves the stored multiset -/

theorem kdNodes_insertRecursively (t : KDTreeN) (vec : Vector) (axis : ℕ) :
    kdNodes (insertRecursively t vec axis) = vec ::ₘ kdNodes t := by
  induction t generalizing axis with
  | nil => simp [insertRecursively, kdNodes]
  | node v l r ax d ihl ihr =>
    simp only [insertRecursively]
    split
    · simp only [kdNodes, ihl]
      rw [Multiset.cons_swap]
      simp [Multiset.cons_add]
    · simp only [kdNodes, ihr]
      rw [Multiset.cons_swap]
      simp [Multiset.cons_add, Multiset.add_cons]

theorem kdNodes_newKDTree (S : List Vector) : kdNodes (newKDTree S) = ↑S := by
  suffices h : ∀ (t : KDTreeN), kdNodes (S.foldl (fun t v => insertRecursively t v 0) t)
      = kdNodes t + ↑S by
    simpa [newKDTree, kdNodes] using h .nil
  induction S with
  | nil => intro t; simp [kdNodes]
  | cons v rest ih =>
    intro t
    simp only [List.foldl_cons, ih, kdNodes_insertRecursively, ← Multiset.cons_coe]
    simp only [← Multiset.singleton_add]
    abel

/-! ### KD-tree: with k covering the whole tree, KNearest collects every
stored vector -/

theorem kdKNearestAux_full (q : Vector) (k : ℕ) (t : KDTreeN) :
    ∀ (axis : ℕ) (pq : List DistPair), pq.length + (kdNodes t).card ≤ k →
    ((kdKNearestAux q k t axis pq : List DistPair) : Multiset DistPair)
      = ↑pq + (kdNodes t).map (fun v => (v, euclidDistanceSq q.values v.values)) := by
  induction t with
  | nil => intro axis pq _; simp [kdKNearestAux, kdNodes]
  | node v l r ax0 d0 ihl ihr =>
    intro axis pq hle
    have hcard : (kdNodes (.node v l r ax0 d0)).card
        = 1 + (kdNodes l).card + (kdNodes r).card := by
      simp [kdNodes]; omega
    have hpqlen : pq.length < k := by omega
    have hlen1 : ∀ x, ((heapPushBounded k pq x).length = pq.length + 1) :=
      fun x => heapPushBounded_length_of_lt k pq x hpqlen
    have hcoe1 : ∀ x, ((heapPushBounded k pq x : List DistPair) : Multiset DistPair) = x ::ₘ ↑pq :=
      fun x => heapPushBounded_coe_of_lt k pq x hpqlen
    simp only [kdKNearestAux]
    split
    · -- descend right first
      set pq1 := heapPushBounded k pq (v, euclidDistanceSq q.values v.values) with hpq1
      have hr : pq1.length + (kdNodes r).card ≤ k := by rw [hlen1]; omega
      have hrec := ihr ((axis + 1) % q.values.length) pq1 hr
      have hlenr : (kdKNearestAux q k r ((axis + 1) % q.values.length) pq1).length
          = pq1.length + (kdNodes r).card := by
        have := congrArg Multiset.card hrec
        simpa using this
      set pq2 := kdKNearestAux q k r ((axis + 1) % q.values.length) pq1 with hpq2
      split
      · have hl : pq2.length + (kdNodes l).card ≤ k := by
          rw [hlenr, hlen1]; omega
        rw [ihl ((axis + 1) % q.values.length) pq2 hl, hrec, hcoe1]
        simp only [kdNodes, Multiset.map_cons, Multiset.map_add, Multiset.map_singleton,
          ← Multiset.singleton_add]
        abel
      · -- pruned: the left subtree must be empty
        rename_i hcond
        push_neg at hcond
        have : (kdNodes l).card = 0 := by
          have h2 := hcond.1
          rw [hlenr, hlen1] at h2
          omega
        have hlz : kdNodes l = 0 := Multiset.card_eq_zero.mp this
        rw [hrec, hcoe1]
        simp only [kdNodes, hlz, Multiset.map_cons, Multiset.map_add, Multiset.map_zero,
          Multiset.map_singleton, ← Multiset.singleton_add]
        abel
    · -- descend left first
      set pq1 := heapPushBounded k pq (v, euclidDistanceSq q.values v.values) with hpq1
      have hl : pq1.length + (kdNodes l).card ≤ k := by rw [hlen1]; omega
      have hrec := ihl ((axis + 1) % q.values.length) pq1 hl
      have hlenl : (kdKNearestAux q k l ((axis + 1) % q.values.length) pq1).length
          = pq1.length + (kdNodes l).card := by
        have := congrArg Multiset.card hrec
        simpa using this
      set pq2 := kdKNearestAux q k l ((axis + 1) % q.values.length) pq1 with hpq2
      split
      · have hr : pq2.length + (kdNodes r).card ≤ k := by
          rw [hlenl, hlen1]; omega
        rw [ihr ((axis + 1) % q.values.length) pq2 hr, hrec, hcoe1]
        simp only [kdNodes, Multiset.map_cons, Multiset.map_add, Multiset.map_singleton,
          ← Multiset.singleton_add]
        abel
      · rename_i hcond
        push_neg at hcond
        have : (kdNodes r).card = 0 := by
          have h2 := hcond.1
          rw [hlenl, hlen1] at h2
          omega
        have hrz : kdNodes r = 0 := Multiset.card_eq_zero.mp this
        rw [hrec, hcoe1]
        simp only [kdNodes, hrz, Multiset.map_cons, Multiset.map_add, Multiset.map_zero,
          Multiset.map_singleton, ← Multiset.singleton_add]
        abel

/-! ### Ball-tree: the batch build stores exactly the input multiset at its
leaves, and KNearest with k covering the tree collects all of them -/

theorem ballLeaves_newBallTree (S : List Vector) (hS : S ≠ []) :
    ballLeaves (newBallTree S) = ↑S := by
  suffices key : ∀ (n : ℕ) (S : List Vector), S.length ≤ n → S ≠ [] →
      ballLeaves (newBallTree S) = ↑S from key S.length S le_rfl hS
  intro n
  induction n with
  | zero =>
    intro S hlen hne
    exact absurd (List.length_eq_zero.mp (Nat.le_zero.mp hlen)) hne
  | succ n ih =>
    intro S hlen hne
    match S, hne with
    | [v], _ => simp [newBallTree, ballLeaves]
    | v0 :: v1 :: rest, _ =>
      rw [newBallTree]
      have h2 : 2 ≤ (v0 :: v1 :: rest).length := by simp
      have hne := splitV1_nonempty (v0 :: v1 :: rest) h2
      have hsum := splitV1_length_sum (v0 :: v1 :: rest)
      have hnotz : ¬((splitV1 (v0 :: v1 :: rest)).1.length = 0 ∨
          (splitV1 (v0 :: v1 :: rest)).2.length = 0) := by
        push_neg
        exact ⟨fun h0 => absurd (List.length_eq_zero.mp h0) hne.1,
          fun h0 => absurd (List.length_eq_zero.mp h0) hne.2⟩
      rw [dif_neg hnotz]
      simp only [ballLeaves, if_neg (by simp : ¬False = true)]
      have hl1 : (splitV1 (v0 :: v1 :: rest)).1.length ≤ n := by
        simp only [List.length_cons] at hsum hlen ⊢
        have := List.length_pos.mpr hne.2
        omega
      have hl2 : (splitV1 (v0 :: v1 :: rest)).2.length ≤ n := by
        simp only [List.length_cons] at hsum hlen ⊢
        have := List.length_pos.mpr hne.1
        omega
      rw [ih _ hl1 hne.1, ih _ hl2 hne.2, Multiset.coe_add]
      exact Multiset.coe_eq_coe.mpr (splitV1_perm (v0 :: v1 :: rest))

theorem ballKNearestAux_full (q : Vector) (k : ℕ) (t : BallTreeN) :
    ∀ (h : List DistPair), h.length + (ballLeaves t).card ≤ k →
    ((ballKNearestAux q k t h : List DistPair) : Multiset DistPair)
      = ↑h + (ballLeaves t).map (fun v => (v, euclidDistanceSq v.values q.values)) := by
  induction t with
  | nil => intro h _; simp [ballKNearestAux, ballLeaves]
  | node c rad l r isLeaf payload ihl ihr =>
    intro h hle
    simp only [ballKNearestAux]
    by_cases hleaf : isLeaf = true
    · rw [if_pos hleaf]
      simp only [ballLeaves, if_pos hleaf, Multiset.card_singleton] at hle
      have hlt : h.length < k := by omega
      rw [if_pos (Or.inl hlt)]
      have hlen : (heapInsert (payload, euclidDistanceSq payload.values q.values) h).length
          = h.length + 1 := heapInsert_length _ _
      rw [if_neg (by omega)]
      rw [heapInsert_coe]
      simp only [ballLeaves, if_pos hleaf, Multiset.map_singleton, ← Multiset.singleton_add]
      abel
    · rw [if_neg hleaf]
      simp only [ballLeaves, if_neg hleaf] at hle ⊢
      simp only [Multiset.card_add] at hle
      split
      · have hl : h.length + (ballLeaves l).card ≤ k := by omega
        have hrecl := ihl h hl
        have hlenl : (ballKNearestAux q k l h).length = h.length + (ballLeaves l).card := by
          have := congrArg Multiset.card hrecl
          simpa using this
        split
        · rename_i hcond
          have hr : (ballKNearestAux q k l h).length + (ballLeaves r).card ≤ k := by
            rw [hlenl]; omega
          rw [ihr _ hr, hrecl]
          simp only [Multiset.map_add]
          abel
        · rename_i hcond
          push_neg at hcond
          have : (ballLeaves r).card = 0 := by
            have h2 := hcond.1
            rw [hlenl] at h2
            omega
          have hrz : ballLeaves r = 0 := Multiset.card_eq_zero.mp this
          rw [hrecl, hrz]
          simp only [Multiset.map_add, Multiset.map_zero]
          abel
      · have hr : h.length + (ballLeaves r).card ≤ k := by omega
        have hrecr := ihr h hr
        have hlenr : (ballKNearestAux q k r h).length = h.length + (ballLeaves r).card := by
          have := congrArg Multiset.card hrecr
          simpa using this
        split
        · rename_i hcond
          have hl : (ballKNearestAux q k r h).length + (ballLeaves l).card ≤ k := by
            rw [hlenr]; omega
          rw [ihl _ hl, hrecr]
          simp only [Multiset.map_add]
          abel
        · rename_i hcond
          push_neg at hcond
          have : (ballLeaves l).card = 0 := by
            have h2 := hcond.1
            rw [hlenr] at h2
            omega
          have hlz : ballLeaves l = 0 := Multiset.card_eq_zero.mp this
          rw [hrecr, hlz]
          simp only [Multiset.map_add, Multiset.map_zero]
          abel

/-! ### VP-tree: the batch build stores exactly the input multiset, and
KNearest with k covering the tree collects all of it -/

theorem vpNodes_buildVPTree (S : List Vector) : vpNodes (buildVPTree S) = ↑S := by
  suffices key : ∀ (n : ℕ) (S : List Vector), S.length ≤ n →
      vpNodes (buildVPTree S) = ↑S from key S.length S le_rfl
  intro n
  induction n with
  | zero =>
    intro S hlen
    have : S = [] := List.length_eq_zero.mp (Nat.le_zero.mp hlen)
    subst this
    simp [buildVPTree, vpNodes]
  | succ n ih =>
    intro S hlen
    match S with
    | [] => simp [buildVPTree, vpNodes]
    | [v] => simp [buildVPTree, vpNodes]
    | vp :: v1 :: rest =>
      rw [buildVPTree]
      simp only [vpNodes]
      have hfl := List.length_filter_le
        (fun v => decide (euclidDistanceSq vp.values v.values <
          median ((v1 :: rest).map (fun v => euclidDistanceSq vp.values v.values)))) (v1 :: rest)
      have hfr := List.length_filter_le
        (fun v => !(decide (euclidDistanceSq vp.values v.values <
          median ((v1 :: rest).map (fun v => euclidDistanceSq vp.values v.values))))) (v1 :: rest)
      have hl1 : ((v1 :: rest).filter (fun v => decide (euclidDistanceSq vp.values v.values <
          median ((v1 :: rest).map (fun v => euclidDistanceSq vp.values v.values))))).length ≤ n := by
        simp only [List.length_cons] at hfl hlen ⊢
        omega
      have hl2 : ((v1 :: rest).filter (fun v => !(decide (euclidDistanceSq vp.values v.values <
          median ((v1 :: rest).map (fun v => euclidDistanceSq vp.values v.values)))))).length ≤ n := by
        simp only [List.length_cons] at hfr hlen ⊢
        omega
      rw [ih _ hl1, ih _ hl2]
      have hperm := List.filter_append_perm
        (fun v => decide (euclidDistanceSq vp.values v.values <
          median ((v1 :: rest).map (fun v => euclidDistanceSq vp.values v.values)))) (v1 :: rest)
      rw [Multiset.coe_add, Multiset.coe_eq_coe.mpr hperm]
      exact Multiset.cons_coe _ _

theorem vpKNearestAux_full (q : Vector) (k : ℕ) (t : VPTreeN) :
    ∀ (pq : List DistPair), pq.length + (vpNodes t).card ≤ k →
    ((vpKNearestAux q k t pq : List DistPair) : Multiset DistPair)
      = ↑pq + (vpNodes t).map (fun v => (v, euclidDistanceSq q.values v.values)) := by
  induction t with
  | nil => intro pq _; simp [vpKNearestAux, vpNodes]
  | node vp mu l r ihl ihr =>
    intro pq hle
    have hcard : (vpNodes (.node vp mu l r)).card
        = 1 + (vpNodes l).card + (vpNodes r).card := by
      simp [vpNodes]; omega
    have hpqlen : pq.length < k := by omega
    simp only [vpKNearestAux]
    have hlen1 : (heapPushBounded k pq (vp, euclidDistanceSq q.values vp.values)).length
        = pq.length + 1 := heapPushBounded_length_of_lt _ _ _ hpqlen
    have hcoe1 : ((heapPushBounded k pq (vp, euclidDistanceSq q.values vp.values) :
        List DistPair) : Multiset DistPair)
        = (vp, euclidDistanceSq q.values vp.values) ::ₘ ↑pq :=
      heapPushBounded_coe_of_lt _ _ _ hpqlen
    set pq1 := heapPushBounded k pq (vp, euclidDistanceSq q.values vp.values) with hpq1
    split
    · have hl : pq1.length + (vpNodes l).card ≤ k := by rw [hlen1]; omega
      have hrecl := ihl pq1 hl
      have hlenl : (vpKNearestAux q k l pq1).length = pq1.length + (vpNodes l).card := by
        have := congrArg Multiset.card hrecl
        simpa using this
      split
      · have hr : (vpKNearestAux q k l pq1).length + (vpNodes r).card ≤ k := by
          rw [hlenl, hlen1]; omega
        rw [ihr _ hr, hrecl, hcoe1]
        simp only [vpNodes, Multiset.map_cons, Multiset.map_add, Multiset.map_singleton,
          ← Multiset.singleton_add]
        abel
      · rename_i hcond
        push_neg at hcond
        have : (vpNodes r).card = 0 := by
          have h2 := hcond.1
          rw [hlenl, hlen1] at h2
          omega
        have hrz : vpNodes r = 0 := Multiset.card_eq_zero.mp this
        rw [hrecl, hcoe1]
        simp only [vpNodes, hrz, Multiset.map_cons, Multiset.map_add, Multiset.map_zero,
          Multiset.map_singleton, ← Multiset.singleton_add]
        abel
    · have hr : pq1.length + (vpNodes r).card ≤ k := by rw [hlen1]; omega
      have hrecr := ihr pq1 hr
      have hlenr : (vpKNearestAux q k r pq1).length = pq1.length + (vpNodes r).card := by
        have := congrArg Multiset.card hrecr
        simpa using this
      split
      · have hl : (vpKNearestAux q k r pq1).length + (vpNodes l).card ≤ k := by
          rw [hlenr, hlen1]; omega
        rw [ihl _ hl, hrecr, hcoe1]
        simp only [vpNodes, Multiset.map_cons, Multiset.map_add, Multiset.map_singleton,
          ← Multiset.singleton_add]
        abel
      · rename_i hcond
        push_neg at hcond
        have : (vpNodes l).card = 0 := by
          have h2 := hcond.1
          rw [hlenr, hlen1] at h2
          omega
        have hlz : vpNodes l = 0 := Multiset.card_eq_zero.mp this
        rw [hrecr, hcoe1]
        simp only [vpNodes, hlz, Multiset.map_cons, Multiset.map_add, Multiset.map_zero,
          Multiset.map_singleton, ← Multiset.singleton_add]
        abel

/-! ### Assembling the id multisets -/

theorem idsMultiset_reverse_map_fst (l : List DistPair) :
    idsMultiset ((l.reverse).map Prod.fst)
      = Multiset.map (fun p : DistPair => p.1.id) (↑l : Multiset DistPair) := by
  unfold idsMultiset
  rw [List.map_map, ← Multiset.map_coe, Multiset.coe_reverse]
  rfl

theorem idsMultiset_bruteKNearest_full (S : List Vector) (q : Vector) :
    idsMultiset (bruteKNearest S q S.length) = Multiset.map Vector.id (↑S : Multiset Vector) := by
  unfold bruteKNearest idsMultiset
  simp only [min_self]
  have hperm := List.perm_insertionSort (fun (a b : DistPair) => a.2 ≤ b.2)
    (S.map (fun v => (v, euclidDistanceSq q.values v.values)))
  have hlen : (List.insertionSort (fun (a b : DistPair) => a.2 ≤ b.2)
      (S.map (fun v => (v, euclidDistanceSq q.values v.values)))).length = S.length := by
    rw [hperm.length_eq, List.length_map]
  rw [List.take_of_length_le (le_of_eq hlen)]
  rw [List.map_map, ← Multiset.map_coe, Multiset.coe_eq_coe.mpr hperm, ← Multiset.map_coe,
    Multiset.map_map]
  rfl

/-- C1: for every non-empty vector set S and query q, KNearest(q, |S|) on the
insertion-built KD-tree, the batch-built Ball-tree and the batch-built
VP-tree returns the same multiset of vector ids as the brute-force baseline
(each returns exactly the ids of S: with k = |S| the bounded heap is never
full before the last push, so no traversal guard ever prunes and every stored
vector is collected exactly once). -/
theorem C1_exact_knearest_full_matches_brute (S : List Vector) (q : Vector) (hS : S ≠ []) :
    idsMultiset (kdKNearest (newKDTree S) q S.length)
        = idsMultiset (bruteKNearest S q S.length) ∧
      (∃ res, ballKNearest (newBallTree S) q S.length = some res ∧
        idsMultiset res = idsMultiset (bruteKNearest S q S.length)) ∧
      idsMultiset (vpKNearest (newVPTree S) q S.length)
        = idsMultiset (bruteKNearest S q S.length) := by
  have hbrute := idsMultiset_bruteKNearest_full S q
  have hSlen : 0 < S.length := List.length_pos.mpr hS
  refine ⟨?_, ?_, ?_⟩
  · -- KD-tree
    have hnodes := kdNodes_newKDTree S
    have hcard : (kdNodes (newKDTree S)).card = S.length := by
      rw [hnodes]; simp
    have hfull := kdKNearestAux_full q S.length (newKDTree S) 0 [] (by simp [hcard])
    unfold kdKNearest
    rw [idsMultiset_reverse_map_fst, hfull, hbrute, hnodes]
    simp only [Multiset.coe_nil, zero_add, Multiset.map_map]
    rfl
  · -- Ball-tree
    refine ⟨((ballKNearestAux q S.length (newBallTree S) []).reverse).map Prod.fst, ?_, ?_⟩
    · unfold ballKNearest
      rw [if_neg (by omega)]
    · have hleaves := ballLeaves_newBallTree S hS
      have hcard : (ballLeaves (newBallTree S)).card = S.length := by
        rw [hleaves]; simp
      have hfull := ballKNearestAux_full q S.length (newBallTree S) [] (by simp [hcard])
      rw [idsMultiset_reverse_map_fst, hfull, hbrute, hleaves]
      simp only [Multiset.coe_nil, zero_add, Multiset.map_map]
      rfl
  · -- VP-tree
    have hnodes := vpNodes_buildVPTree S
    have hcard : (vpNodes (newVPTree S)).card = S.length := by
      unfold newVPTree
      rw [hnodes]; simp
    have hfull := vpKNearestAux_full q S.length (newVPTree S) [] (by simp [hcard])
    unfold vpKNearest
    rw [idsMultiset_reverse_map_fst, hfull, hbrute]
    unfold newVPTree
    rw [hnodes]
    simp only [Multiset.coe_nil, zero_add, Multiset.map_map]
    rfl

/-- Witness for C1 at the concrete set S = [(id 0, [0]), (id 1, [3])] and
query (id 9, [2]). -/
theorem C1_exact_knearest_full_matches_brute_witness :
    ([(⟨0, [0]⟩ : Vector), ⟨1, [3]⟩] ≠ ([] : List Vector)) ∧
      (idsMultiset (kdKNearest (newKDTree [⟨0, [0]⟩, ⟨1, [3]⟩]) ⟨9, [2]⟩ 2)
          = idsMultiset (bruteKNearest [⟨0, [0]⟩, ⟨1, [3]⟩] ⟨9, [2]⟩ 2) ∧
        (∃ res, ballKNearest (newBallTree [⟨0, [0]⟩, ⟨1, [3]⟩]) ⟨9, [2]⟩ 2 = some res ∧
          idsMultiset res = idsMultiset (bruteKNearest [⟨0, [0]⟩, ⟨1, [3]⟩] ⟨9, [2]⟩ 2)) ∧
        idsMultiset (vpKNearest (newVPTree [⟨0, [0]⟩, ⟨1, [3]⟩]) ⟨9, [2]⟩ 2)
          = idsMultiset (bruteKNearest [⟨0, [0]⟩, ⟨1, [3]⟩] ⟨9, [2]⟩ 2)) :=
  ⟨by decide, C1_exact_knearest_full_matches_brute [⟨0, [0]⟩, ⟨1, [3]⟩] ⟨9, [2]⟩ (by decide)⟩

/-- C2: the KD-tree range search is claimed to return exactly the vectors
within distance r, with no vector omitted by the recursion conditions.  The
code's conditions are swapped (left is entered iff `node[a]-r ≤ q[a]`, right
iff `node[a]+r ≥ q[a]`), so a query lying more than r to the left of a
splitting plane skips precisely the side that contains it: on the stored set
{(0,[10]), (1,[0])} (vector 1 in the left subtree of the root), the query
(9,[0]) with radius 1 returns the empty list although vector 1 is at
distance 0 ≤ 1. -/
theorem C2_kd_range_search_misses_stored_vector :
    kdSearchWithinRange (newKDTree [⟨0, [10]⟩, ⟨1, [0]⟩]) ⟨9, [0]⟩ 1 = [] ∧
      euclidDistanceSq (⟨9, [0]⟩ : Vector).values (⟨1, [0]⟩ : Vector).values ≤ 1 * 1 ∧
      (⟨1, [0]⟩ : Vector) ∈ kdNodes (newKDTree [⟨0, [10]⟩, ⟨1, [0]⟩]) := by
  refine ⟨by decide, by decide, by decide⟩

/-- C10: KDTree.Nearest is not read-only — the worker executes
`best = node; best.Distance = d`, so the root node (which always becomes the
first best) ends every call with its Distance field set to the query
distance; on a concrete tree whose stored Distance differs, the call changes
the node graph, and SaveToFile serialises exactly that node graph, Distance
fields included. -/
theorem C10_kd_nearest_assigns_distance_into_tree :
    (∀ (v : Vector) (l r : KDTreeN) (ax : ℕ) (d0 : ℚ) (q : Vector),
      kdRootDistance (kdNearestTree (.node v l r ax d0) q)
        = euclidDistanceSq v.values q.values) ∧
      kdNearestTree (.node ⟨0, [0]⟩ .nil .nil 0 0) ⟨1, [1]⟩
        ≠ KDTreeN.node ⟨0, [0]⟩ .nil .nil 0 0 ∧
      kdSaveToFile (kdNearestTree (.node ⟨0, [0]⟩ .nil .nil 0 0) ⟨1, [1]⟩)
        ≠ kdSaveToFile (KDTreeN.node ⟨0, [0]⟩ .nil .nil 0 0) := by
  refine ⟨?_, by decide, by decide⟩
  intro v l r ax d0 q
  simp only [kdNearestTree, kdNearestMut, Option.isNone_none, Bool.true_or, if_true]
  split <;> split <;> simp [kdRootDistance]

/-- C7 amended: on an index holding no vectors, Nearest fails with an error
for the brute-force store and the KD-tree, but a freshly created Ball-tree
returns its zero-valued payload with a nil error, and an empty VP-tree
returns the zero vector with a nil error (VPTree.KNearest never produces an
error for Nearest to propagate). -/
theorem C7_amended_nearest_on_empty_index :
    (∀ q : Vector, bruteNearest [] q = none) ∧
      (∀ q : Vector, kdNearest .nil q = none) ∧
      (∀ q : Vector, ballNearest q (newBallTree []) = zeroVector) ∧
      (∀ q : Vector, vpNearest .nil q = zeroVector) := by
  have hb : newBallTree [] = .node zeroVector 0 .nil .nil true zeroVector := by
    rw [newBallTree]
  exact ⟨fun _ => rfl, fun _ => rfl, fun q => by rw [hb]; rfl, fun _ => rfl⟩

/-- C7 counterexample: the claim says Nearest on an empty index fails with an
Empty-style error; on a freshly created Ball-tree (and an empty VP-tree) the
source instead returns the zero vector with a nil error — in the embedding
these calls have no error outcome at all and produce `zeroVector`. -/
theorem C7_counterexample_empty_nearest_succeeds :
    ballNearest ⟨7, [1, 2]⟩ (newBallTree []) = zeroVector ∧
      vpNearest .nil ⟨7, [1, 2]⟩ = zeroVector := by
  have hb : newBallTree [] = .node zeroVector 0 .nil .nil true zeroVector := by
    rw [newBallTree]
  exact ⟨by rw [hb]; rfl, rfl⟩

/-- C8 amended: VPTree.Delete reports the "vector not found" error exactly
when the tree is empty; on a non-empty tree the recursion returns success
unconditionally, so deleting an absent vector silently succeeds. -/
theorem C8_amended_vp_delete_fails_iff_empty (t : VPTreeN) (vec : Vector) :
    (vpDelete t vec).isSome ↔ t ≠ .nil := by
  cases t with
  | nil => simp [vpDelete, vpDeleteRec]
  | node vp mu l r =>
    simp only [vpDelete, vpDeleteRec, ne_eq]
    split
    · simp
    · split <;> simp

/-- C8 counterexample: the single-vector VP-tree over (0,[0]) does not store
(5,[1]), yet Delete((5,[1])) succeeds (the tree is returned unchanged and no
NotFound error is raised). -/
theorem C8_counterexample_delete_absent_succeeds :
    vpDelete (buildVPTree [⟨0, [0]⟩]) ⟨5, [1]⟩ = some (buildVPTree [⟨0, [0]⟩]) ∧
      (∀ w ∈ vpInOrder (buildVPTree [⟨0, [0]⟩]), ¬(vectorEquals w ⟨5, [1]⟩ = true)) := by
  have hb : buildVPTree [(⟨0, [0]⟩ : Vector)] = .node ⟨0, [0]⟩ 0 .nil .nil := by
    rw [buildVPTree]
  rw [hb]
  refine ⟨?_, by decide⟩
  simp only [vpDelete, vpDeleteRec]
  norm_num [vectorEquals, floatEquals, epsilon, euclidDistanceSq]

/-- C6 amended: CoverTree.Insert fails with the Duplicate error iff the
point stored at the node insertion starts from (the root) is at distance 0
from the new vector; a duplicate detected deeper in the tree is swallowed by
the child loop (any child error just moves to the next child) and the vector
is attached as a fresh child instead. -/
theorem C6_amended_cover_duplicate_only_at_root (base : ℚ) (root : CoverNode) (vec : Vector) :
    ctInsertNode base vec root = .duplicate
      ↔ euclidDistanceSq root.point.values vec.values = 0 := by
  cases root with
  | mk point level children =>
    simp only [ctInsertNode, CoverNode.point]
    split
    · simp_all
    · split
      · cases h : ctInsertChildren base vec children <;> simp_all
      · simp_all

/-- C6 counterexample: the tree with root (0,[0]) at level 0 and child
(1,[1/4]) at level -1 (base 2) already stores a point at distance 0 from
v = (2,[1/4]); yet Insert(v) succeeds — the duplicate error raised at the
child is swallowed and v is attached as a second child — instead of failing
with the Duplicate error and leaving v out. -/
theorem C6_counterexample_descendant_duplicate_inserted :
    coverTreeInsert 2 (some (.mk ⟨0, [0]⟩ 0 [.mk ⟨1, [1/4]⟩ (-1) []])) ⟨2, [1/4]⟩
        = some (some (.mk ⟨0, [0]⟩ 0 [.mk ⟨1, [1/4]⟩ (-1) [], .mk ⟨2, [1/4]⟩ (-1) []])) ∧
      euclidDistanceSq (⟨1, [1/4]⟩ : Vector).values (⟨2, [1/4]⟩ : Vector).values = 0 := by
  have hchild : ctInsertNode 2 ⟨2, [1/4]⟩ (.mk ⟨1, [1/4]⟩ (-1) []) =
      CoverInsertOutcome.duplicate := by
    rw [ctInsertNode]
    norm_num [euclidDistanceSq]
  have hnone : ctInsertChildren 2 ⟨2, [1/4]⟩ [CoverNode.mk ⟨1, [1/4]⟩ (-1) []] = none := by
    rw [ctInsertChildren, hchild]
    rw [ctInsertChildren]
    rfl
  have hins : ctInsertNode 2 ⟨2, [1/4]⟩ (.mk ⟨0, [0]⟩ 0 [.mk ⟨1, [1/4]⟩ (-1) []])
      = CoverInsertOutcome.inserted
          (.mk ⟨0, [0]⟩ 0 [.mk ⟨1, [1/4]⟩ (-1) [], .mk ⟨2, [1/4]⟩ (-1) []]) := by
    rw [ctInsertNode]
    rw [hnone]
    norm_num [euclidDistanceSq]
  refine ⟨?_, by norm_num [euclidDistanceSq]⟩
  simp only [coverTreeInsert]
  rw [hins]

/-- C5 amended: the gob snapshot carries the exported fields Codebooks, DB,
IDs, IDLookup but not the unexported m and k; loading it into a PQ that was
constructed with the same m and k reproduces the saved state exactly (and
hence identical answers to every query). -/
theorem C5_amended_pq_snapshot_restores_exported_fields (p : PQState) :
    pqLoadFromFile (pqSaveToFile p) (newPQ p.m p.k) = p := by
  cases p
  rfl

/-- C5 counterexample: m and k_c are unexported, so gob does not serialise
them; loading the snapshot of a PQ with m = 2, k = 3 into a PQ constructed
as NewPQ(1, 1) yields m = 1, k = 1 — the "complete state including m and
k_c" is not reconstructed (and a query against the loaded index splits the
query vector into 1 rather than 2 subvectors). -/
theorem C5_counterexample_m_k_not_serialized :
    pqLoadFromFile (pqSaveToFile (PQState.mk 2 3 [[], []] [] [] [])) (newPQ 1 1)
      ≠ PQState.mk 2 3 [[], []] [] [] [] := by
  decide

/-- C9: SearchWithinInterval's candidate generation is claimed to add every
database index that carries a top-3 centroid code; the code instead iterates
`for idx := range p.IDs[i]` — the subspace positions of database vector i's
own code array — so only indices 0..m-1 can ever become candidates.  With
m = 1, centroids [0],[100],[200], DB = [(0,[10]), (1,[1])] (both coded 0),
query [1] and interval [0,1]: centroid [0] is within the expanded threshold,
the candidate set is {0} only, and the result is empty although DB vector 1
carries code 0 and lies at distance 0 within [0,1]. -/
theorem C9_searchwithininterval_iterates_wrong_index_set :
    pqSearchWithinInterval
        (pqInsertVec (pqInsertVec
          (PQState.mk 1 3 [[⟨0, ⟨0, [0]⟩⟩, ⟨1, ⟨0, [100]⟩⟩, ⟨2, ⟨0, [200]⟩⟩]] [] [] [])
          ⟨0, [10]⟩) ⟨1, [1]⟩)
        ⟨5, [1]⟩ 0 1 = [] ∧
      (pqInsertVec (pqInsertVec
          (PQState.mk 1 3 [[⟨0, ⟨0, [0]⟩⟩, ⟨1, ⟨0, [100]⟩⟩, ⟨2, ⟨0, [200]⟩⟩]] [] [] [])
          ⟨0, [10]⟩) ⟨1, [1]⟩).db = [⟨0, [10]⟩, ⟨1, [1]⟩] ∧
      (pqInsertVec (pqInsertVec
          (PQState.mk 1 3 [[⟨0, ⟨0, [0]⟩⟩, ⟨1, ⟨0, [100]⟩⟩, ⟨2, ⟨0, [200]⟩⟩]] [] [] [])
          ⟨0, [10]⟩) ⟨1, [1]⟩).ids = [[0], [0]] ∧
      euclidDistanceSq (⟨5, [1]⟩ : Vector).values (⟨1, [1]⟩ : Vector).values ≤ 1 * 1 := by
  refine ⟨by decide, by decide, by decide, by decide⟩

/-! ### Heap model: order and size invariants (for the k-NN shape claims) -/

/-- The heap-model invariant: keys descending from the root (head). -/
def HeapOrdered (l : List DistPair) : Prop :=
  List.Pairwise (fun a b : DistPair => b.2 ≤ a.2) l

theorem heapInsert_mem {z x : DistPair} {l : List DistPair} (h : z ∈ heapInsert x l) :
    z = x ∨ z ∈ l := by
  have := (heapInsert_perm x l).mem_iff.mp h
  simpa using this

theorem heapInsert_ordered (x : DistPair) (l : List DistPair) (hl : HeapOrdered l) :
    HeapOrdered (heapInsert x l) := by
  induction l with
  | nil => simp [heapInsert, HeapOrdered]
  | cons y ys ih =>
    rw [HeapOrdered, List.pairwise_cons] at hl
    simp only [heapInsert]
    split
    · rename_i hxy
      refine List.Pairwise.cons ?_ (List.Pairwise.cons hl.1 hl.2)
      intro z hz
      rcases List.mem_cons.mp hz with h1 | h1
      · subst h1; exact le_of_lt hxy
      · exact le_trans (hl.1 z h1) (le_of_lt hxy)
    · rename_i hxy
      push_neg at hxy
      refine List.Pairwise.cons ?_ (ih hl.2)
      intro z hz
      rcases heapInsert_mem hz with h1 | h1
      · subst h1; exact hxy
      · exact hl.1 z h1

theorem heapPushBounded_mem {z x : DistPair} {k : ℕ} {pq : List DistPair}
    (h : z ∈ heapPushBounded k pq x) : z = x ∨ z ∈ pq := by
  unfold heapPushBounded at h
  split at h
  · rcases heapInsert_mem h with h1 | h1
    · exact Or.inl h1
    · right
      split at h1
      · exact List.mem_of_mem_tail h1
      · exact h1
  · exact Or.inr h

theorem heapPushBounded_ordered (k : ℕ) (pq : List DistPair) (x : DistPair)
    (h : HeapOrdered pq) : HeapOrdered (heapPushBounded k pq x) := by
  unfold heapPushBounded
  split
  · refine heapInsert_ordered x _ ?_
    split
    · exact List.Pairwise.sublist (List.tail_sublist pq) h
    · exact h
  · exact h

theorem heapPushBounded_length (k : ℕ) (hk : 1 ≤ k) (pq : List DistPair) (x : DistPair)
    (hle : pq.length ≤ k) :
    (heapPushBounded k pq x).length = min k (pq.length + 1) := by
  unfold heapPushBounded
  rcases Nat.lt_or_ge pq.length k with hlt | hge
  · rw [if_pos (Or.inl hlt), if_neg (Nat.ne_of_lt hlt), heapInsert_length]
    omega
  · have hkeq : pq.length = k := le_antisymm hle hge
    by_cases hx : x.2 < headDist pq
    · rw [if_pos (Or.inr hx), if_pos hkeq, heapInsert_length, List.length_tail]
      omega
    · rw [if_neg ?hc]
      · omega
      case hc =>
        rintro (h1 | h1)
        · omega
        · exact hx h1

/-- The bundled invariant carried through the KD k-NN traversal: the heap
holds at most k entries, ordered descending, every entry keyed by its true
query distance; the final size is k clamped by the number of reachable
vectors. -/
theorem kdKNearestAux_inv (q : Vector) (k : ℕ) (hk : 1 ≤ k) (t : KDTreeN) :
    ∀ (axis : ℕ) (pq : List DistPair), pq.length ≤ k → HeapOrdered pq →
      (∀ x ∈ pq, x.2 = euclidDistanceSq q.values x.1.values) →
      ((kdKNearestAux q k t axis pq).length = min k (pq.length + (kdNodes t).card)
        ∧ HeapOrdered (kdKNearestAux q k t axis pq)
        ∧ ∀ x ∈ kdKNearestAux q k t axis pq, x.2 = euclidDistanceSq q.values x.1.values) := by
  induction t with
  | nil =>
    intro axis pq hle hord htag
    simp only [kdKNearestAux, kdNodes, Multiset.card_zero, Nat.add_zero]
    exact ⟨(Nat.min_eq_right hle).symm, hord, htag⟩
  | node v l r ax0 d0 ihl ihr =>
    intro axis pq hle hord htag
    have hcard : (kdNodes (.node v l r ax0 d0)).card
        = 1 + (kdNodes l).card + (kdNodes r).card := by
      simp [kdNodes]; omega
    have hp1len : (heapPushBounded k pq (v, euclidDistanceSq q.values v.values)).length
        = min k (pq.length + 1) := heapPushBounded_length k hk pq _ hle
    have hp1ord : HeapOrdered (heapPushBounded k pq (v, euclidDistanceSq q.values v.values)) :=
      heapPushBounded_ordered k pq _ hord
    have hp1tag : ∀ x ∈ heapPushBounded k pq (v, euclidDistanceSq q.values v.values),
        x.2 = euclidDistanceSq q.values x.1.values := by
      intro x hx
      rcases heapPushBounded_mem hx with h1 | h1
      · subst h1; rfl
      · exact htag x h1
    simp only [kdKNearestAux]
    split
    · have ih1 := ihr ((axis + 1) % q.values.length) _ (by omega) hp1ord hp1tag
      split
      · have ih2 := ihl ((axis + 1) % q.values.length) _ (by rw [ih1.1]; omega)
          ih1.2.1 ih1.2.2
        refine ⟨?_, ih2.2.1, ih2.2.2⟩
        rw [ih2.1, ih1.1, hp1len, hcard]
        omega
      · rename_i hcond
        push_neg at hcond
        have hlen2 := ih1.1
        refine ⟨?_, ih1.2.1, ih1.2.2⟩
        rw [hlen2, hp1len, hcard]
        have := hcond.1
        rw [hlen2, hp1len] at this
        omega
    · have ih1 := ihl ((axis + 1) % q.values.length) _ (by omega) hp1ord hp1tag
      split
      · have ih2 := ihr ((axis + 1) % q.values.length) _ (by rw [ih1.1]; omega)
          ih1.2.1 ih1.2.2
        refine ⟨?_, ih2.2.1, ih2.2.2⟩
        rw [ih2.1, ih1.1, hp1len, hcard]
        omega
      · rename_i hcond
        push_neg at hcond
        have hlen2 := ih1.1
        refine ⟨?_, ih1.2.1, ih1.2.2⟩
        rw [hlen2, hp1len, hcard]
        have := hcond.1
        rw [hlen2, hp1len] at this
        omega

/-- The PQ.KNearest scan step `if len < k { Push } else if est < top { Pop;
Push }` coincides with the shared bounded-push idiom while the heap is within
its bound. -/
theorem pqScanStep_eq_heapPushBounded (k : ℕ) (h : List DistPair) (x : DistPair)
    (hle : h.length ≤ k) :
    (if h.length < k then heapInsert x h
      else if x.2 < headDist h then heapInsert x h.tail else h)
      = heapPushBounded k h x := by
  unfold heapPushBounded
  rcases Nat.lt_or_ge h.length k with hlt | hge
  · rw [if_pos hlt, if_pos (Or.inl hlt), if_neg (Nat.ne_of_lt hlt)]
  · have hkeq : h.length = k := le_antisymm hle hge
    rw [if_neg (by omega)]
    by_cases hx : x.2 < headDist h
    · rw [if_pos hx, if_pos (Or.inr hx), if_pos hkeq]
    · rw [if_neg hx, if_neg ?hc]
      case hc =>
        rintro (h1 | h1)
        · omega
        · exact hx h1

/-- The invariant carried through the PQ.KNearest scan of the database. -/
theorem pqScan_inv (p : PQState) (distTables : List (List ℚ)) (k : ℕ) (hk : 1 ≤ k) :
    ∀ (db : List Vector) (h : List DistPair), h.length ≤ k → HeapOrdered h →
      (∀ x ∈ h, x.2 = estimateDistance p distTables x.1) →
      ((db.foldl (fun h vec =>
          let est := estimateDistance p distTables vec
          if h.length < k then heapInsert (vec, est) h
          else if est < headDist h then heapInsert (vec, est) h.tail
          else h) h).length = min k (h.length + db.length)
        ∧ HeapOrdered (db.foldl (fun h vec =>
            let est := estimateDistance p distTables vec
            if h.length < k then heapInsert (vec, est) h
            else if est < headDist h then heapInsert (vec, est) h.tail
            else h) h)
        ∧ ∀ x ∈ (db.foldl (fun h vec =>
            let est := estimateDistance p distTables vec
            if h.length < k then heapInsert (vec, est) h
            else if est < headDist h then heapInsert (vec, est) h.tail
            else h) h), x.2 = estimateDistance p distTables x.1) := by
  intro db
  induction db with
  | nil =>
    intro h hle hord htag
    simp only [List.foldl_nil, List.length_nil, Nat.add_zero]
    exact ⟨(Nat.min_eq_right hle).symm, hord, htag⟩
  | cons vec rest ih =>
    intro h hle hord htag
    simp only [List.foldl_cons]
    rw [pqScanStep_eq_heapPushBounded k h _ hle]
    have hlen1 := heapPushBounded_length k hk h (vec, estimateDistance p distTables vec) hle
    have hord1 := heapPushBounded_ordered k h (vec, estimateDistance p distTables vec) hord
    have htag1 : ∀ x ∈ heapPushBounded k h (vec, estimateDistance p distTables vec),
        x.2 = estimateDistance p distTables x.1 := by
      intro x hx
      rcases heapPushBounded_mem hx with h1 | h1
      · subst h1; rfl
      · exact htag x h1
    have ih1 := ih _ (by omega) hord1 htag1
    refine ⟨?_, ih1.2.1, ih1.2.2⟩
    rw [ih1.1, hlen1]
    simp only [List.length_cons]
    omega

/-- The heap contents, popped worst-first and reversed, come out ascending
in the keyed quantity. -/
theorem pairwise_result_of_heap (f : Vector → ℚ) (l : List DistPair)
    (hord : HeapOrdered l) (htag : ∀ x ∈ l, x.2 = f x.1) :
    List.Pairwise (fun a b => f a ≤ f b) ((l.reverse).map Prod.fst) := by
  rw [List.pairwise_map, List.pairwise_reverse]
  refine List.Pairwise.imp_of_mem ?_ hord
  intro a b ha hb hab
  rw [← htag a ha, ← htag b hb]
  exact hab

/-- C3 amended: a successful KNearest(q, k) with 1 ≤ k ≤ n returns exactly k
vectors; for the KD-tree they come out sorted ascending by true Euclidean
distance to q, while PQ.KNearest sorts by its ADC estimate (the sum of
per-subspace distances between the query slices and the centroids of the
stored codes) — not necessarily by true distance. -/
theorem C3_amended_knearest_returns_k_sorted :
    (∀ (S : List Vector) (q : Vector) (k : ℕ), 1 ≤ k → k ≤ S.length →
      (kdKNearest (newKDTree S) q k).length = k ∧
        List.Pairwise (fun a b => euclidDistanceSq q.values a.values
          ≤ euclidDistanceSq q.values b.values) (kdKNearest (newKDTree S) q k)) ∧
    (∀ (p : PQState) (q : Vector) (k : ℕ), 1 ≤ k → k ≤ p.db.length →
      p.codebooks ≠ [] →
      ∃ res, pqKNearest p q k = some res ∧ res.length = k ∧
        List.Pairwise (fun a b => pqQueryEstimate p q a ≤ pqQueryEstimate p q b) res) := by
  constructor
  · intro S q k hk hkS
    have hinv := kdKNearestAux_inv q k hk (newKDTree S) 0 [] (by simp) (by simp [HeapOrdered])
      (by simp)
    have hcard : (kdNodes (newKDTree S)).card = S.length := by
      rw [kdNodes_newKDTree]; simp
    constructor
    · unfold kdKNearest
      rw [List.length_map, List.length_reverse, hinv.1, hcard]
      omega
    · exact pairwise_result_of_heap _ _ hinv.2.1 hinv.2.2
  · intro p q k hk hkdb hcb
    have hscan := pqScan_inv p (pqDistTables p q) k hk p.db [] (by simp) (by simp [HeapOrdered])
      (by simp)
    refine ⟨((p.db.foldl (fun h vec =>
        let est := estimateDistance p (pqDistTables p q) vec
        if h.length < k then heapInsert (vec, est) h
        else if est < headDist h then heapInsert (vec, est) h.tail
        else h) []).reverse).map Prod.fst, ?_, ?_, ?_⟩
    · unfold pqKNearest
      rw [if_neg (by simpa using fun h0 => hcb (List.length_eq_zero.mp h0))]
    · rw [List.length_map, List.length_reverse, hscan.1]
      simp only [List.length_nil, Nat.zero_add]
      omega
    · refine pairwise_result_of_heap (pqQueryEstimate p q) _ hscan.2.1 ?_
      intro x hx
      exact hscan.2.2 x hx

/-- Witness for C3 at the one-vector KD set S = [(0,[5])] with k = 1 and at
a one-vector trained PQ with m = 1, k = 1. -/
theorem C3_amended_knearest_returns_k_sorted_witness :
    ((1 ≤ 1 ∧ 1 ≤ ([(⟨0, [5]⟩ : Vector)]).length) ∧
      ((kdKNearest (newKDTree [⟨0, [5]⟩]) ⟨1, [2]⟩ 1).length = 1 ∧
        List.Pairwise (fun a b => euclidDistanceSq (⟨1, [2]⟩ : Vector).values a.values
          ≤ euclidDistanceSq (⟨1, [2]⟩ : Vector).values b.values)
          (kdKNearest (newKDTree [⟨0, [5]⟩]) ⟨1, [2]⟩ 1))) ∧
    ((1 ≤ (pqInsertVec (PQState.mk 1 1 [[⟨0, ⟨0, [0]⟩⟩]] [] [] []) ⟨0, [5]⟩).db.length ∧
        (pqInsertVec (PQState.mk 1 1 [[⟨0, ⟨0, [0]⟩⟩]] [] [] []) ⟨0, [5]⟩).codebooks ≠ []) ∧
      ∃ res, pqKNearest (pqInsertVec (PQState.mk 1 1 [[⟨0, ⟨0, [0]⟩⟩]] [] [] []) ⟨0, [5]⟩)
          ⟨1, [2]⟩ 1 = some res ∧ res.length = 1 ∧
        List.Pairwise (fun a b =>
          pqQueryEstimate (pqInsertVec (PQState.mk 1 1 [[⟨0, ⟨0, [0]⟩⟩]] [] [] []) ⟨0, [5]⟩)
              ⟨1, [2]⟩ a
            ≤ pqQueryEstimate (pqInsertVec (PQState.mk 1 1 [[⟨0, ⟨0, [0]⟩⟩]] [] [] []) ⟨0, [5]⟩)
              ⟨1, [2]⟩ b) res) :=
  ⟨⟨⟨le_refl 1, by decide⟩,
      C3_amended_knearest_returns_k_sorted.1 [⟨0, [5]⟩] ⟨1, [2]⟩ 1 (le_refl 1) (by decide)⟩,
    ⟨⟨by decide, by decide⟩,
      C3_amended_knearest_returns_k_sorted.2
        (pqInsertVec (PQState.mk 1 1 [[⟨0, ⟨0, [0]⟩⟩]] [] [] []) ⟨0, [5]⟩) ⟨1, [2]⟩ 1
        (le_refl 1) (by decide) (by decide)⟩⟩

/-- C3 counterexample: PQ.KNearest ranks by the ADC estimate, so the claim
that the returned vectors' true Euclidean distances to q are non-decreasing
fails.  With m = 1, centroids [0] and [100], DB vectors (0,[49]) (coded to
[0]) and (1,[140]) (coded to [100]) and query [90], the estimates are 8100
and 100, so KNearest(q,2) returns [(1,[140]), (0,[49])] — but the true
squared distances are 2500 followed by 1681, a strictly decreasing pair. -/
theorem C3_counterexample_pq_knearest_not_sorted_by_true_distance :
    pqKNearest
        (pqInsertVec (pqInsertVec
          (PQState.mk 1 2 [[⟨0, ⟨0, [0]⟩⟩, ⟨1, ⟨0, [100]⟩⟩]] [] [] [])
          ⟨0, [49]⟩) ⟨1, [140]⟩)
        ⟨9, [90]⟩ 2 = some [⟨1, [140]⟩, ⟨0, [49]⟩] ∧
      (pqInsertVec (pqInsertVec
          (PQState.mk 1 2 [[⟨0, ⟨0, [0]⟩⟩, ⟨1, ⟨0, [100]⟩⟩]] [] [] [])
          ⟨0, [49]⟩) ⟨1, [140]⟩).db.length = 2 ∧
      ¬(euclidDistanceSq (⟨9, [90]⟩ : Vector).values (⟨1, [140]⟩ : Vector).values
          ≤ euclidDistanceSq (⟨9, [90]⟩ : Vector).values (⟨0, [49]⟩ : Vector).values) := by
  refine ⟨by decide, by decide, by decide⟩

/-! ### LSH: insert persistence -/

theorem dedupById_subset {w : Vector} : ∀ (seen : List ℤ) (l : List Vector),
    w ∈ dedupById seen l → w ∈ l := by
  intro seen l
  induction l generalizing seen with
  | nil => simp [dedupById]
  | cons v rest ih =>
    simp only [dedupById]
    split
    · intro h
      exact List.mem_cons_of_mem v (ih _ h)
    · intro h
      rcases List.mem_cons.mp h with h1 | h1
      · exact h1 ▸ List.mem_cons_self v rest
      · exact List.mem_cons_of_mem v (ih _ h1)

theorem dedupById_mem {v : Vector} : ∀ (seen : List ℤ) (l : List Vector),
    v ∈ l → v.id ∉ seen → (∀ w ∈ l, w.id = v.id → w = v) → v ∈ dedupById seen l := by
  intro seen l
  induction l generalizing seen with
  | nil => simp
  | cons w rest ih =>
    intro hmem hseen huniq
    simp only [dedupById]
    split
    · rename_i hws
      have hwne : w ≠ v := by
        intro h0
        exact hseen (h0 ▸ hws)
      have hvrest : v ∈ rest := by
        rcases List.mem_cons.mp hmem with h1 | h1
        · exact absurd h1.symm hwne
        · exact h1
      exact ih seen hvrest hseen (fun z hz => huniq z (List.mem_cons_of_mem w hz))
    · rename_i hws
      by_cases hwv : w = v
      · exact hwv ▸ List.mem_cons_self w _
      · have hvrest : v ∈ rest := by
          rcases List.mem_cons.mp hmem with h1 | h1
          · exact absurd h1.symm hwv
          · exact h1
        have hidne : w.id ≠ v.id := fun h0 => hwv (huniq w (List.mem_cons_self w rest) h0)
        refine List.mem_cons_of_mem w (ih _ hvrest ?_ ?_)
        · intro h0
          rcases List.mem_cons.mp h0 with h1 | h1
          · exact hidne h1.symm
          · exact hseen h1
        · exact fun z hz => huniq z (List.mem_cons_of_mem w hz)

theorem lookupBucket_mem {table : List (ℤ × List Vector)} {h : ℤ} {bucket : List Vector}
    (hl : lookupBucket table h = some bucket) : bucket ∈ table.map Prod.snd := by
  unfold lookupBucket at hl
  rcases hfind : table.find? (fun p => p.1 == h) with _ | p
  · rw [hfind] at hl; simp at hl
  · rw [hfind] at hl
    have hpb : p.2 = bucket := by simpa using hl
    subst hpb
    exact List.mem_map_of_mem Prod.snd (List.mem_of_find?_eq_some hfind)

theorem mem_flatten_map_snd_setBucket_self {table : List (ℤ × List Vector)} {h : ℤ}
    {b : List Vector} {w : Vector} (hw : w ∈ b) :
    w ∈ ((setBucket table h b).map Prod.snd).flatten := by
  rw [List.mem_flatten]
  unfold setBucket
  split
  · rename_i hfind
    rcases Option.isSome_iff_exists.mp hfind with ⟨p, hp⟩
    have hpmem := List.mem_of_find?_eq_some hp
    have hptrue := List.find?_some hp
    refine ⟨b, ?_, hw⟩
    have : (p.1, b) ∈ table.map (fun p2 => if p2.1 == h then (p2.1, b) else p2) := by
      refine List.mem_map.mpr ⟨p, hpmem, ?_⟩
      rw [if_pos hptrue]
    simpa using List.mem_map_of_mem Prod.snd this
  · refine ⟨b, ?_, hw⟩
    simp

theorem mem_flatten_map_snd_setBucket {table : List (ℤ × List Vector)} {h : ℤ}
    {b : List Vector} {w : Vector} (hw : w ∈ ((setBucket table h b).map Prod.snd).flatten) :
    w ∈ (table.map Prod.snd).flatten ∨ w ∈ b := by
  rw [List.mem_flatten] at hw
  obtain ⟨bk, hbk, hwbk⟩ := hw
  unfold setBucket at hbk
  split at hbk
  · rcases List.mem_map.mp hbk with ⟨p2, hp2mem, hp2eq⟩
    rcases List.mem_map.mp hp2mem with ⟨p, hpmem, hpeq⟩
    subst hpeq
    split at hp2eq
    · right
      rw [← hp2eq] at hwbk
      exact hwbk
    · left
      rw [List.mem_flatten]
      exact ⟨bk, hp2eq ▸ List.mem_map_of_mem Prod.snd hpmem, hwbk⟩
  · rcases List.mem_map.mp hbk with ⟨p, hpmem, hpeq⟩
    rcases List.mem_append.mp hpmem with h1 | h1
    · left
      rw [List.mem_flatten]
      exact ⟨bk, hpeq ▸ List.mem_map_of_mem Prod.snd h1, hwbk⟩
    · right
      simp only [List.mem_singleton] at h1
      subst h1
      simp only [← hpeq] at hwbk
      exact hwbk

/-- Per-table membership transport: everything in a table after the
per-table insert step was there before or is the inserted vector. -/
theorem lshInsertTable_subset {s : LSHState} {vec w : Vector}
    {rt : Vector × List (ℤ × List Vector)}
    (hw : w ∈ ((lshInsertTable s vec rt).map Prod.snd).flatten) :
    w ∈ ((rt.2.map Prod.snd).flatten) ∨ w = vec := by
  simp only [lshInsertTable] at hw
  rcases hlk : lookupBucket rt.2 (lshHash rt.1 vec) with _ | bucket
  · simp only [hlk] at hw
    rcases mem_flatten_map_snd_setBucket hw with h2 | h2
    · exact Or.inl h2
    · right; simpa using h2
  · simp only [hlk] at hw
    split at hw
    · exact Or.inl hw
    · rcases mem_flatten_map_snd_setBucket hw with h2 | h2
      · exact Or.inl h2
      · rcases List.mem_append.mp h2 with h3 | h3
        · left
          rw [List.mem_flatten]
          exact ⟨bucket, lookupBucket_mem hlk, h3⟩
        · right; simpa using h3

/-- Per-table insertion: when the hashed bucket has room, the step stores
the vector in the table. -/
theorem lshInsertTable_mem {s : LSHState} {vec : Vector}
    {rt : Vector × List (ℤ × List Vector)}
    (hroom : bucketHasRoom s rt vec = true) :
    vec ∈ ((lshInsertTable s vec rt).map Prod.snd).flatten := by
  simp only [lshInsertTable]
  unfold bucketHasRoom at hroom
  rcases hlk : lookupBucket rt.2 (lshHash rt.1 vec) with _ | bucket
  · simp only [hlk]
    exact mem_flatten_map_snd_setBucket_self (by simp)
  · simp only [hlk, decide_eq_true_eq] at hroom
    simp only [hlk]
    rw [if_neg (by omega)]
    exact mem_flatten_map_snd_setBucket_self (by simp)

/-- Everything in the tables after an insert was either there before or is
the inserted vector. -/
theorem lshAllRaw_insert_subset {s : LSHState} {vec w : Vector}
    (hw : w ∈ lshAllRaw (lshInsert s vec)) : w ∈ lshAllRaw s ∨ w = vec := by
  unfold lshAllRaw at hw ⊢
  unfold lshInsert at hw
  rw [List.mem_flatten] at hw
  obtain ⟨fl, hfl, hwfl⟩ := hw
  rcases List.mem_map.mp hfl with ⟨t2, ht2, hfleq⟩
  subst hfleq
  rcases List.mem_append.mp ht2 with h1 | h1
  · rcases List.mem_map.mp h1 with ⟨rt, hrt, hrteq⟩
    have hrtmem : rt.2 ∈ s.hashTables := (List.of_mem_zip hrt).2
    subst hrteq
    rcases lshInsertTable_subset hwfl with h2 | h2
    · left
      rw [List.mem_flatten]
      exact ⟨_, List.mem_map_of_mem _ hrtmem, h2⟩
    · exact Or.inr h2
  · left
    rw [List.mem_flatten]
    have : t2 ∈ s.hashTables := List.mem_of_mem_drop h1
    exact ⟨_, List.mem_map_of_mem _ this, hwfl⟩

/-- If some table has room for the hashed vector, the insert lands it in the
raw bucket contents. -/
theorem lshAllRaw_insert_mem {s : LSHState} {vec : Vector}
    {rt : Vector × List (ℤ × List Vector)}
    (hrt : rt ∈ List.zip s.randomVectors s.hashTables)
    (hroom : bucketHasRoom s rt vec = true) :
    vec ∈ lshAllRaw (lshInsert s vec) := by
  unfold lshAllRaw lshInsert
  rw [List.mem_flatten]
  exact ⟨_, List.mem_map_of_mem _ (List.mem_append_left _ (List.mem_map_of_mem _ hrt)),
    lshInsertTable_mem hroom⟩

/-- C4 amended: after a (necessarily successful) LSH Insert(v) of a vector
whose id is not yet stored, Vectors() contains v — provided at least one of
v's hashed buckets is missing or below the bucket cap.  When every hashed
bucket is full, the insert silently drops v from every table (the claim's
full-bucket case fails; see the counterexample). -/
theorem C4_amended_lsh_insert_persists_when_room (s : LSHState) (vec : Vector)
    (hfresh : ∀ w ∈ lshAllRaw s, w.id ≠ vec.id)
    (hroom : ∃ rt ∈ List.zip s.randomVectors s.hashTables, bucketHasRoom s rt vec = true) :
    vec ∈ lshVectors (lshInsert s vec) := by
  obtain ⟨rt, hrt, hr⟩ := hroom
  have hmem := lshAllRaw_insert_mem hrt hr
  refine dedupById_mem [] _ hmem (by simp) ?_
  intro w hw hid
  rcases lshAllRaw_insert_subset hw with h1 | h1
  · exact absurd hid (hfresh w h1)
  · exact h1

/-- Witness for C4 at an LSH with one reference vector [0,0], bucket cap 2,
holding (0,[0,0]); inserting (1,[0,0]) finds the bucket below the cap. -/
theorem C4_amended_lsh_insert_persists_when_room_witness :
    ((∀ w ∈ lshAllRaw (lshInsert (newLSH [⟨9, [0, 0]⟩] 2) ⟨0, [0, 0]⟩),
        w.id ≠ (⟨1, [0, 0]⟩ : Vector).id) ∧
      (∃ rt ∈ List.zip (lshInsert (newLSH [⟨9, [0, 0]⟩] 2) ⟨0, [0, 0]⟩).randomVectors
          (lshInsert (newLSH [⟨9, [0, 0]⟩] 2) ⟨0, [0, 0]⟩).hashTables,
        bucketHasRoom (lshInsert (newLSH [⟨9, [0, 0]⟩] 2) ⟨0, [0, 0]⟩) rt ⟨1, [0, 0]⟩ = true)) ∧
    (⟨1, [0, 0]⟩ : Vector) ∈
      lshVectors (lshInsert (lshInsert (newLSH [⟨9, [0, 0]⟩] 2) ⟨0, [0, 0]⟩) ⟨1, [0, 0]⟩) :=
  ⟨⟨by decide, by decide⟩,
    C4_amended_lsh_insert_persists_when_room
      (lshInsert (newLSH [⟨9, [0, 0]⟩] 2) ⟨0, [0, 0]⟩) ⟨1, [0, 0]⟩ (by decide) (by decide)⟩

/-- C4 counterexample: with one table and bucket cap 1, inserting (0,[0,0])
fills bucket 0; the subsequent Insert((1,[0,0])) returns success in the
source (Insert always returns nil) but hits the full bucket, is silently
dropped, and (1,[0,0]) never appears in Vectors(). -/
theorem C4_counterexample_lsh_full_bucket_drops_insert :
    lshVectors (lshInsert (lshInsert (newLSH [⟨9, [0, 0]⟩] 1) ⟨0, [0, 0]⟩) ⟨1, [0, 0]⟩)
        = [⟨0, [0, 0]⟩] ∧
      (⟨1, [0, 0]⟩ : Vector) ∉
        lshVectors (lshInsert (lshInsert (newLSH [⟨9, [0, 0]⟩] 1) ⟨0, [0, 0]⟩) ⟨1, [0, 0]⟩) := by
  refine ⟨by decide, by decide⟩

end VecDB
